import Mathlib

/-!
Verification development for the vmime repository.

Two source artifacts are embedded here:

* `src/net/simpleAuthenticator.cpp` — embedded directly (section
  `VMime.Net`): a `simpleAuthenticator` stores a username and a password
  (`vmime::string`, modelled as Lean `String`), with a default constructor,
  a two-argument constructor, getters, setters, and `requestAuthInfos`,
  which builds an `authenticationInfos` from the stored pair.

* The MIME core (data model, parser, generator, messageBuilder overlay)
  whose code is not present under src/ — only its documentation is.  Those
  components are modelled from the specification (each such definition's
  doc comment starts with `Modelled from the spec:`).  Octet streams are
  modelled as lists of characters; the generator emits CRLF exclusively,
  so a serialized message is rendered from a list of CR/LF-free physical
  lines by appending CRLF to each.
-/

namespace VMime

namespace Net

/-- The value object returned by `requestAuthInfos` in
`simpleAuthenticator.cpp`; modelled from its use there: it is constructed
from a username and a password. -/
structure authenticationInfos where
  username : String
  password : String
deriving DecidableEq, Repr

/-- State of a `vmime::net::simpleAuthenticator`: the two string members
`m_username` and `m_password`. -/
structure simpleAuthenticator where
  m_username : String
  m_password : String
deriving DecidableEq, Repr

/-- `simpleAuthenticator::simpleAuthenticator()`: the default constructor
leaves both members default-constructed (empty strings). -/
def simpleAuthenticator.mkDefault : simpleAuthenticator :=
  { m_username := "", m_password := "" }

/-- `simpleAuthenticator::simpleAuthenticator(username, password)`. -/
def simpleAuthenticator.mkWith (username password : String) : simpleAuthenticator :=
  { m_username := username, m_password := password }

/-- `simpleAuthenticator::getUsername() const`. -/
def simpleAuthenticator.getUsername (a : simpleAuthenticator) : String :=
  a.m_username

/-- `simpleAuthenticator::getPassword() const`. -/
def simpleAuthenticator.getPassword (a : simpleAuthenticator) : String :=
  a.m_password

/-- `simpleAuthenticator::setUsername(username)`: assigns `m_username`. -/
def simpleAuthenticator.setUsername (a : simpleAuthenticator) (username : String) :
    simpleAuthenticator :=
  { a with m_username := username }

/-- `simpleAuthenticator::setPassword(password)`: assigns `m_password`. -/
def simpleAuthenticator.setPassword (a : simpleAuthenticator) (password : String) :
    simpleAuthenticator :=
  { a with m_password := password }

/-- `simpleAuthenticator::requestAuthInfos() const`: returns
`authenticationInfos(m_username, m_password)`.  The method is `const`; we
model it with explicit state threading, returning the (unchanged) state
alongside the result. -/
def simpleAuthenticator.requestAuthInfos (a : simpleAuthenticator) :
    authenticationInfos × simpleAuthenticator :=
  (⟨a.m_username, a.m_password⟩, a)

end Net

/-! ### Octet and line primitives

Modelled from the spec: header and body octets are US-ASCII characters;
physical lines are CRLF-terminated.  A serialized message is represented
by its list of physical lines (`Line`), rendered to octets by
`linesToOctets` (the generator emits CRLF exclusively) and recovered by
`splitLines` (the parser also accepts bare LF). -/

/-- A physical or logical line of a message, as a list of octets
(characters). -/
abbrev Line := List Char

/-- Whitespace octets (space and horizontal tab). -/
def isWS (c : Char) : Bool := c == ' ' || c == '\t'

/-- A line free of CR and LF octets. -/
def noCRLF (l : Line) : Prop := ∀ c ∈ l, c ≠ '\r' ∧ c ≠ '\n'

instance (l : Line) : Decidable (noCRLF l) := by unfold noCRLF; infer_instance

/-- Whether a line begins with a whitespace octet (a folded continuation
line). -/
def headWS : Line → Bool
  | [] => false
  | c :: _ => isWS c

theorem takeWhile_append_all {α : Type} {p : α → Bool} {A B : List α}
    (h : ∀ a ∈ A, p a = true) :
    (A ++ B).takeWhile p = A ++ B.takeWhile p := by
  induction A with
  | nil => simp
  | cons a A ih =>
    have ha : p a = true := h a (List.mem_cons_self a A)
    have ih' := ih fun x hx => h x (List.mem_cons_of_mem a hx)
    simp [List.takeWhile_cons, ha, ih']

theorem dropWhile_append_all {α : Type} {p : α → Bool} {A B : List α}
    (h : ∀ a ∈ A, p a = true) :
    (A ++ B).dropWhile p = B.dropWhile p := by
  induction A with
  | nil => simp
  | cons a A ih =>
    have ha : p a = true := h a (List.mem_cons_self a A)
    have ih' := ih fun x hx => h x (List.mem_cons_of_mem a hx)
    simp [List.dropWhile_cons, ha, ih']

theorem takeWhile_append_stop {α : Type} {p : α → Bool} {A B : List α} {c : α}
    (h : ∀ a ∈ A, p a = true) (hc : p c = false) :
    (A ++ c :: B).takeWhile p = A := by
  rw [takeWhile_append_all h, List.takeWhile_cons, hc]
  simp

theorem dropWhile_append_stop {α : Type} {p : α → Bool} {A B : List α} {c : α}
    (h : ∀ a ∈ A, p a = true) (hc : p c = false) :
    (A ++ c :: B).dropWhile p = c :: B := by
  rw [dropWhile_append_all h, List.dropWhile_cons, hc]
  simp

theorem takeWhile_all {α : Type} {p : α → Bool} {A : List α}
    (h : ∀ a ∈ A, p a = true) : A.takeWhile p = A := by
  induction A with
  | nil => simp
  | cons a A ih =>
    have ha : p a = true := h a (List.mem_cons_self a A)
    have ih' := ih fun x hx => h x (List.mem_cons_of_mem a hx)
    simp [List.takeWhile_cons, ha, ih']

theorem dropWhile_all {α : Type} {p : α → Bool} {A : List α}
    (h : ∀ a ∈ A, p a = true) : A.dropWhile p = [] := by
  induction A with
  | nil => simp
  | cons a A ih =>
    have ha : p a = true := h a (List.mem_cons_self a A)
    have ih' := ih fun x hx => h x (List.mem_cons_of_mem a hx)
    simp [List.dropWhile_cons, ha, ih']

/-- Fuelled splitting of a line at every occurrence of a separator octet. -/
def splitOnCharF (sep : Char) : Nat → Line → List Line
  | 0, l => [l]
  | fuel + 1, l =>
    let piece := l.takeWhile (fun c => c != sep)
    match l.dropWhile (fun c => c != sep) with
    | [] => [piece]
    | _ :: rest => piece :: splitOnCharF sep fuel rest

/-- Split a line at every occurrence of a separator octet. -/
def splitOnChar (sep : Char) (l : Line) : List Line := splitOnCharF sep l.length l

theorem splitOnCharF_no_sep {sep : Char} {l : Line} (f : Nat)
    (h : ∀ c ∈ l, c ≠ sep) : splitOnCharF sep f l = [l] := by
  cases f with
  | zero => rfl
  | succ f =>
    have hall : ∀ c ∈ l, (c != sep) = true := by
      intro c hc; simpa using h c hc
    simp only [splitOnCharF, takeWhile_all hall, dropWhile_all hall]

theorem splitOnCharF_append {sep : Char} {A B : Line} (f : Nat)
    (h : ∀ c ∈ A, c ≠ sep) :
    splitOnCharF sep (f + 1) (A ++ sep :: B) = A :: splitOnCharF sep f B := by
  have hall : ∀ c ∈ A, (c != sep) = true := by
    intro c hc; simpa using h c hc
  have ht : (A ++ sep :: B).takeWhile (fun c => c != sep) = A :=
    takeWhile_append_stop hall (by simp)
  have hd : (A ++ sep :: B).dropWhile (fun c => c != sep) = sep :: B :=
    dropWhile_append_stop hall (by simp)
  simp only [splitOnCharF, ht, hd]

/-- Drop leading whitespace octets. -/
def trimL (l : Line) : Line := l.dropWhile isWS

/-- Drop trailing whitespace octets. -/
def trimR (l : Line) : Line := (l.reverse.dropWhile isWS).reverse

/-- Drop leading and trailing whitespace octets. -/
def trim (l : Line) : Line := trimR (trimL l)

theorem trim_no_ws {l : Line} (h : ∀ c ∈ l, isWS c = false) : trim l = l := by
  have h1 : l.dropWhile isWS = l := by
    cases l with
    | nil => rfl
    | cons c t =>
      have hc : isWS c = false := h c (List.mem_cons_self c t)
      simp [List.dropWhile_cons, hc]
  have h2 : l.reverse.dropWhile isWS = l.reverse := by
    cases hr : l.reverse with
    | nil => rfl
    | cons c t =>
      have hcl : c ∈ l := by
        have : c ∈ l.reverse := by rw [hr]; exact List.mem_cons_self c t
        simpa using this
      have hc : isWS c = false := h c hcl
      simp [List.dropWhile_cons, hc]
  simp [trim, trimL, trimR, h1, h2]

/-- ASCII lowercase of one octet. -/
def lowerChar (c : Char) : Char :=
  if 'A' ≤ c ∧ c ≤ 'Z' then Char.ofNat (c.toNat + 32) else c

/-- ASCII lowercase of a line. -/
def lowerLine (l : Line) : Line := l.map lowerChar

/-- Strip one pair of surrounding double quotes, if present. -/
def unquote (l : Line) : Line :=
  match l with
  | '"' :: rest =>
    match rest.getLast? with
    | some '"' => rest.dropLast
    | _ => l
  | _ => l

/-- The greatest length among a list of lines. -/
def linesMax (ls : List Line) : Nat := ls.foldr (fun l m => max l.length m) 0

theorem le_linesMax {ls : List Line} {l : Line} (h : l ∈ ls) :
    l.length ≤ linesMax ls := by
  induction ls with
  | nil => cases h
  | cons a t ih =>
    rcases List.mem_cons.1 h with h | h
    · subst h; simp [linesMax]
    · exact le_trans (ih h) (by simp [linesMax])

/-- Render CR/LF-free physical lines to the octet stream, terminating every
line with CRLF (the generator emits CRLF exclusively). -/
def linesToOctets (ls : List Line) : List Char :=
  (ls.map (fun l => l ++ ['\r', '\n'])).flatten

/-- Strip one trailing CR octet, if present. -/
def stripCR (l : Line) : Line :=
  match l.getLast? with
  | some '\r' => l.dropLast
  | _ => l

/-- Split an octet stream into lines at LF octets, stripping a trailing CR
from each (so both CRLF and bare LF terminate a line), and dropping the
final empty fragment produced by a terminating newline. -/
def splitLines (s : List Char) : List Line :=
  let ps := splitOnCharF '\n' s.length s
  let ps := if ps.getLast? = some [] then ps.dropLast else ps
  ps.map stripCR

theorem splitOnCharF_linesToOctets {ls : List Line} (f : Nat)
    (h : ∀ l ∈ ls, noCRLF l) (hf : (linesToOctets ls).length ≤ f) :
    splitOnCharF '\n' f (linesToOctets ls) = ls.map (fun l => l ++ ['\r']) ++ [[]] := by
  induction ls generalizing f with
  | nil =>
    cases f with
    | zero => rfl
    | succ f => rfl
  | cons l t ih =>
    have hlen : (linesToOctets (l :: t)).length = l.length + 2 + (linesToOctets t).length := by
      simp [linesToOctets]; omega
    cases f with
    | zero => omega
    | succ f =>
      have hs : linesToOctets (l :: t) = (l ++ ['\r']) ++ '\n' :: linesToOctets t := by
        simp [linesToOctets]
      have hA : ∀ c ∈ l ++ ['\r'], c ≠ '\n' := by
        intro c hc
        rcases List.mem_append.1 hc with hc | hc
        · exact (h l (List.mem_cons_self l t) c hc).2
        · simp at hc; subst hc; decide
      have ht : ∀ x ∈ t, noCRLF x := fun x hx => h x (List.mem_cons_of_mem l hx)
      rw [hlen] at hf
      rw [hs, splitOnCharF_append f hA, ih f ht (by omega)]
      simp

theorem length_le_flatten {α : Type} {u : List α} {L : List (List α)} (h : u ∈ L) :
    u.length ≤ L.flatten.length := by
  induction L with
  | nil => cases h
  | cons a t ih =>
    rcases List.mem_cons.1 h with h | h
    · subst h; simp
    · simp only [List.flatten_cons, List.length_append]
      exact le_trans (ih h) (Nat.le_add_left _ _)

theorem headWS_append {l x : Line} (h : l ≠ []) : headWS (l ++ x) = headWS l := by
  cases l with
  | nil => exact absurd rfl h
  | cons c t => rfl

theorem head?_append_left {α : Type} {l x : List α} (h : l ≠ []) :
    (l ++ x).head? = l.head? := by
  cases l with
  | nil => exact absurd rfl h
  | cons c t => rfl

/-! ### Header folding and unfolding

Modelled from the spec: headers are logically one line per field but
physically folded.  Folding inserts a line break before whitespace runs so
that no output line exceeds 78 octets where possible, never 998 (a
whitespace-free run longer than 998 octets is force-broken).  Unfolding
joins continuation lines (lines whose first octet is space or tab) onto
the prior line, preserving the whitespace octets. -/

/-- Fuelled decomposition of a logical line into indivisible units: the
leading non-whitespace run, then alternating (whitespace run ++
non-whitespace run) segments.  Folding may break only between units. -/
def unitsF : Nat → Line → List Line
  | 0, l => if l.isEmpty then [] else [l]
  | f + 1, l =>
    if l.isEmpty then []
    else
      let ws := l.takeWhile isWS
      let rest1 := l.dropWhile isWS
      let nw := rest1.takeWhile (fun c => !isWS c)
      let rest := rest1.dropWhile (fun c => !isWS c)
      (ws ++ nw) :: unitsF f rest

/-- The units of a logical line. -/
def units (l : Line) : List Line := unitsF l.length l

theorem unitsF_decompose {l : Line} (hne : l ≠ []) (f : Nat) :
    ∃ u rest, unitsF (f + 1) l = u :: unitsF f rest ∧ l = u ++ rest ∧ u ≠ [] ∧
      u.head? = l.head? ∧ (rest = [] ∨ headWS rest = true) ∧
      rest.length < l.length := by
  have hie : l.isEmpty = false := by
    cases l with
    | nil => exact absurd rfl hne
    | cons c t => rfl
  set ws := l.takeWhile isWS with hws
  set rest1 := l.dropWhile isWS with hrest1
  set nw := rest1.takeWhile (fun c => !isWS c) with hnw
  set rest := rest1.dropWhile (fun c => !isWS c) with hrest
  have hstep : unitsF (f + 1) l = (ws ++ nw) :: unitsF f rest := by
    simp only [unitsF, hie]
    rfl
  have hl1 : ws ++ rest1 = l := by
    rw [hws, hrest1]; exact List.takeWhile_append_dropWhile _ _
  have hl2 : nw ++ rest = rest1 := by
    rw [hnw, hrest]; exact List.takeWhile_append_dropWhile _ _
  have hdec : l = (ws ++ nw) ++ rest := by
    rw [List.append_assoc, hl2, hl1]
  have hune : ws ++ nw ≠ [] := by
    intro hc
    have hwsnil : ws = [] := by
      cases hws' : ws with
      | nil => rfl
      | cons a b => rw [hws'] at hc; simp at hc
    have hnwnil : nw = [] := by
      cases hnw' : nw with
      | nil => rfl
      | cons a b => rw [hnw', hwsnil] at hc; simp at hc
    have : l = rest := by rw [hdec, hwsnil, hnwnil]; simp
    cases hl : l with
    | nil => exact hne hl
    | cons c t =>
      by_cases hwc : isWS c
      · have : ws ≠ [] := by
          rw [hws, hl]
          simp [List.takeWhile_cons, hwc]
        exact this hwsnil
      · have h1 : rest1 = c :: t := by
          rw [hrest1, hl]
          simp [List.dropWhile_cons, hwc]
        have : nw ≠ [] := by
          rw [hnw, h1]
          simp [List.takeWhile_cons, hwc]
        exact this hnwnil
  have hhead : (ws ++ nw).head? = l.head? := by
    cases hl : l with
    | nil => exact absurd hl hne
    | cons c t =>
      by_cases hwc : isWS c
      · have h1 : ws = c :: t.takeWhile isWS := by
          rw [hws, hl]; simp [List.takeWhile_cons, hwc]
        rw [h1]; rfl
      · have h1 : ws = [] := by
          rw [hws, hl]; simp [List.takeWhile_cons, hwc]
        have h2 : rest1 = c :: t := by
          rw [hrest1, hl]; simp [List.dropWhile_cons, hwc]
        have h3 : nw = c :: t.takeWhile (fun c => !isWS c) := by
          rw [hnw, h2]; simp [List.takeWhile_cons, hwc]
        rw [h1, h3]; rfl
  have hrestws : rest = [] ∨ headWS rest = true := by
    clear hstep hdec hune hhead hl1 hl2
    rw [hrest]
    clear hrest hnw hrest1 hws
    induction rest1 with
    | nil => left; rfl
    | cons c t ih =>
      by_cases hwc : isWS c
      · right
        have : (c :: t).dropWhile (fun c => !isWS c) = c :: t := by
          simp [List.dropWhile_cons, hwc]
        rw [this]
        simpa [headWS] using hwc
      · have : (c :: t).dropWhile (fun c => !isWS c) = t.dropWhile (fun c => !isWS c) := by
          simp [List.dropWhile_cons, hwc]
        rw [this]
        exact ih
  have hlen : rest.length < l.length := by
    have h1 : l.length = (ws ++ nw).length + rest.length := by
      rw [hdec]; simp; omega
    have hu : 0 < (ws ++ nw).length := List.length_pos.2 hune
    omega
  exact ⟨ws ++ nw, rest, hstep, hdec, hune, hhead, hrestws, hlen⟩

theorem unitsF_flatten {l : Line} (f : Nat) (hf : l.length ≤ f) :
    (unitsF f l).flatten = l := by
  induction f generalizing l with
  | zero =>
    have : l = [] := List.length_eq_zero.1 (Nat.le_zero.1 hf)
    subst this; rfl
  | succ f ih =>
    by_cases hne : l = []
    · subst hne; rfl
    · obtain ⟨u, rest, hstep, hdec, _, _, _, hlen⟩ := unitsF_decompose hne f
      rw [hstep]
      simp only [List.flatten_cons]
      rw [ih (by omega), ← hdec]

theorem unitsF_nil (f : Nat) : unitsF f [] = [] := by
  cases f with
  | zero => rfl
  | succ f => rfl

theorem unitsF_singleton {l : Line} (hne : l ≠ []) :
    unitsF 0 l = [l] := by
  have hie : l.isEmpty = false := by
    cases l with
    | nil => exact absurd rfl hne
    | cons c t => rfl
  simp [unitsF, hie]

theorem unitsF_nonempty {l : Line} (f : Nat) {u : Line} (hu : u ∈ unitsF f l) :
    u ≠ [] := by
  induction f generalizing l with
  | zero =>
    by_cases hne : l = []
    · subst hne; rw [unitsF_nil] at hu; cases hu
    · rw [unitsF_singleton hne] at hu
      rw [List.mem_singleton.1 hu]
      exact hne
  | succ f ih =>
    by_cases hne : l = []
    · subst hne; rw [unitsF_nil] at hu; cases hu
    · obtain ⟨w, rest, hstep, _, hwne, _, _, _⟩ := unitsF_decompose hne f
      rw [hstep] at hu
      rcases List.mem_cons.1 hu with h | h
      · rw [h]; exact hwne
      · exact ih h

theorem unitsF_all_headWS {l : Line} (f : Nat) (hws : headWS l = true)
    {u : Line} (hu : u ∈ unitsF f l) : headWS u = true := by
  induction f generalizing l with
  | zero =>
    by_cases hne : l = []
    · subst hne; rw [unitsF_nil] at hu; cases hu
    · rw [unitsF_singleton hne] at hu
      rw [List.mem_singleton.1 hu]
      exact hws
  | succ f ih =>
    by_cases hne : l = []
    · subst hne; rw [unitsF_nil] at hu; cases hu
    · obtain ⟨w, rest, hstep, _, hwne, hwh, hrws, _⟩ := unitsF_decompose hne f
      rw [hstep] at hu
      rcases List.mem_cons.1 hu with h | h
      · rw [h]
        cases hw : w with
        | nil => exact absurd hw hwne
        | cons a b =>
          cases hl : l with
          | nil => exact absurd hl hne
          | cons c t =>
            rw [hw, hl] at hwh
            simp at hwh
            rw [hl] at hws
            simp only [headWS] at hws ⊢
            rw [hwh]
            exact hws
      · rcases hrws with hre | hrw
        · rw [hre, unitsF_nil] at h; cases h
        · exact ih hrw h

theorem unitsF_tail_headWS {l : Line} (f : Nat) {u : Line} {us : List Line}
    (hsp : unitsF f l = u :: us) {v : Line} (hv : v ∈ us) : headWS v = true := by
  cases f with
  | zero =>
    by_cases hne : l = []
    · subst hne; rw [unitsF_nil] at hsp; cases hsp
    · rw [unitsF_singleton hne] at hsp
      injection hsp with h1 h2
      rw [← h2] at hv
      cases hv
  | succ f =>
    by_cases hne : l = []
    · subst hne; rw [unitsF_nil] at hsp; cases hsp
    · obtain ⟨w, rest, hstep, _, _, _, hrws, _⟩ := unitsF_decompose hne f
      rw [hstep] at hsp
      injection hsp with h1 h2
      rw [← h2] at hv
      rcases hrws with hre | hrw
      · rw [hre, unitsF_nil] at hv; cases hv
      · exact unitsF_all_headWS f hrw hv

theorem unitsF_head {l : Line} (hne : l ≠ []) (f : Nat) {u : Line} {us : List Line}
    (hsp : unitsF f l = u :: us) : u.head? = l.head? := by
  cases f with
  | zero =>
    rw [unitsF_singleton hne] at hsp
    injection hsp with h1 h2
    rw [← h1]
  | succ f =>
    obtain ⟨w, rest, hstep, _, _, hwh, _, _⟩ := unitsF_decompose hne f
    rw [hstep] at hsp
    injection hsp with h1 h2
    rw [← h1]
    exact hwh

/-- Fuelled force-breaking of an oversized whitespace-free run into pieces
of at most 997 octets. -/
def chunk997 : Nat → Line → List Line
  | _, [] => []
  | 0, l => [l]
  | f + 1, l => if l.length ≤ 997 then [l] else l.take 997 :: chunk997 f (l.drop 997)

/-- Emit an accumulated physical line; a line longer than 998 octets (a
single oversized unit) is force-broken, with a space opening each
continuation piece. -/
def emitLine (cur : Line) : List Line :=
  if cur.length ≤ 998 then [cur]
  else
    match chunk997 cur.length cur with
    | [] => [cur]
    | p :: ps => p :: ps.map (fun q => ' ' :: q)

/-- Greedy folding: merge the next unit into the current physical line
while the result stays within 78 octets, otherwise break before the unit's
whitespace run. -/
def foldGo : Line → List Line → List Line
  | cur, [] => emitLine cur
  | cur, u :: us =>
    if cur.length + u.length ≤ 78 then foldGo (cur ++ u) us
    else emitLine cur ++ foldGo u us

/-- Modelled from the spec: fold one logical header line into physical
lines of at most 78 octets where possible, never more than 998. -/
def foldLine (s : Line) : List Line :=
  match unitsF s.length s with
  | [] => [[]]
  | u :: us => foldGo u us

theorem chunk997_bound {l : Line} (f : Nat) (hf : l.length ≤ f)
    {p : Line} (hp : p ∈ chunk997 f l) : p.length ≤ 997 := by
  induction f generalizing l with
  | zero =>
    have : l = [] := List.length_eq_zero.1 (Nat.le_zero.1 hf)
    subst this; cases hp
  | succ f ih =>
    cases l with
    | nil => cases hp
    | cons c t =>
      simp only [chunk997] at hp
      by_cases hle : (c :: t : Line).length ≤ 997
      · rw [if_pos hle] at hp
        rw [List.mem_singleton.1 hp]
        exact hle
      · rw [if_neg hle] at hp
        rcases List.mem_cons.1 hp with h | h
        · rw [h, List.length_take]
          omega
        · have hlen : ((c :: t : Line).drop 997).length ≤ f := by
            simp only [List.length_drop, List.length_cons]
            simp only [List.length_cons] at hf
            omega
          exact ih hlen h

theorem chunk997_nonempty {l : Line} (f : Nat) {p : Line}
    (hp : p ∈ chunk997 f l) : p ≠ [] := by
  induction f generalizing l with
  | zero =>
    cases l with
    | nil => cases hp
    | cons c t =>
      rw [List.mem_singleton.1 hp]
      simp
  | succ f ih =>
    cases l with
    | nil => cases hp
    | cons c t =>
      simp only [chunk997] at hp
      by_cases hle : (c :: t : Line).length ≤ 997
      · rw [if_pos hle] at hp
        rw [List.mem_singleton.1 hp]
        simp
      · rw [if_neg hle] at hp
        rcases List.mem_cons.1 hp with h | h
        · rw [h]
          intro hc
          have hl := congrArg List.length hc
          simp only [List.length_take, List.length_cons, List.length_nil] at hl
          simp only [List.length_cons] at hle
          omega
        · exact ih h

theorem chunk997_ne_nil {l : Line} (hne : l ≠ []) (f : Nat) :
    chunk997 f l ≠ [] := by
  cases l with
  | nil => exact absurd rfl hne
  | cons c t =>
    cases f with
    | zero => simp [chunk997]
    | succ f =>
      simp only [chunk997]
      by_cases hle : (c :: t : Line).length ≤ 997
      · rw [if_pos hle]; simp
      · rw [if_neg hle]; simp

theorem emitLine_small {cur : Line} (h : cur.length ≤ 998) :
    emitLine cur = [cur] := by
  simp [emitLine, h]

theorem emitLine_bound {cur : Line} {p : Line} (hp : p ∈ emitLine cur) :
    p.length ≤ 998 := by
  unfold emitLine at hp
  by_cases h : cur.length ≤ 998
  · rw [if_pos h] at hp
    rw [List.mem_singleton.1 hp]
    exact h
  · rw [if_neg h] at hp
    cases hch : chunk997 cur.length cur with
    | nil =>
      have hne : cur ≠ [] := by
        intro hc
        rw [hc] at h
        simp at h
      exact absurd hch (chunk997_ne_nil hne _)
    | cons q qs =>
      rw [hch] at hp
      rcases List.mem_cons.1 hp with h1 | h1
      · have : q ∈ chunk997 cur.length cur := by rw [hch]; exact List.mem_cons_self _ _
        have := chunk997_bound cur.length le_rfl this
        rw [h1]; omega
      · obtain ⟨r, hr, hrq⟩ := List.mem_map.1 h1
        have : r ∈ chunk997 cur.length cur := by rw [hch]; exact List.mem_cons_of_mem _ hr
        have := chunk997_bound cur.length le_rfl this
        rw [← hrq]
        simp
        omega

theorem emitLine_nonempty {cur : Line} (hc : cur ≠ []) {p : Line}
    (hp : p ∈ emitLine cur) : p ≠ [] := by
  unfold emitLine at hp
  by_cases h : cur.length ≤ 998
  · rw [if_pos h] at hp
    rw [List.mem_singleton.1 hp]; exact hc
  · rw [if_neg h] at hp
    cases hch : chunk997 cur.length cur with
    | nil =>
      rw [hch] at hp
      rw [List.mem_singleton.1 hp]; exact hc
    | cons q qs =>
      rw [hch] at hp
      rcases List.mem_cons.1 hp with h1 | h1
      · rw [h1]
        exact chunk997_nonempty cur.length (by rw [hch]; exact List.mem_cons_self _ _)
      · obtain ⟨r, hr, hrq⟩ := List.mem_map.1 h1
        rw [← hrq]
        simp

theorem foldGo_flatten {us : List Line} : ∀ {cur : Line}, cur.length ≤ 998 →
    (∀ u ∈ us, u.length ≤ 998) → (foldGo cur us).flatten = cur ++ us.flatten := by
  induction us with
  | nil =>
    intro cur hcur _
    simp [foldGo, emitLine_small hcur]
  | cons u us ih =>
    intro cur hcur hus
    have hu : u.length ≤ 998 := hus u (List.mem_cons_self _ _)
    have hus' : ∀ v ∈ us, v.length ≤ 998 := fun v hv => hus v (List.mem_cons_of_mem _ hv)
    by_cases hle : cur.length + u.length ≤ 78
    · simp only [foldGo, if_pos hle]
      rw [ih (by simp only [List.length_append]; omega) hus']
      simp
    · simp only [foldGo, if_neg hle]
      rw [List.flatten_append, ih hu hus', emitLine_small hcur]
      simp

theorem foldGo_head_rest {us : List Line} : ∀ {cur : Line}, cur.length ≤ 998 →
    (∀ u ∈ us, headWS u = true) → (∀ u ∈ us, u.length ≤ 998) →
    ∃ ext rest, foldGo cur us = (cur ++ ext) :: rest ∧ ∀ v ∈ rest, headWS v = true := by
  induction us with
  | nil =>
    intro cur hcur _ _
    refine ⟨[], [], ?_, ?_⟩
    · simp [foldGo, emitLine_small hcur]
    · intro v hv; cases hv
  | cons u us ih =>
    intro cur hcur hws hlen
    have hu : headWS u = true := hws u (List.mem_cons_self _ _)
    have hul : u.length ≤ 998 := hlen u (List.mem_cons_self _ _)
    have hws' : ∀ v ∈ us, headWS v = true := fun v hv => hws v (List.mem_cons_of_mem _ hv)
    have hlen' : ∀ v ∈ us, v.length ≤ 998 := fun v hv => hlen v (List.mem_cons_of_mem _ hv)
    by_cases hle : cur.length + u.length ≤ 78
    · simp only [foldGo, if_pos hle]
      have hcu : (cur ++ u).length ≤ 998 := by
        simp only [List.length_append]; omega
      obtain ⟨ext, rest, heq, hrest⟩ := ih hcu hws' hlen'
      exact ⟨u ++ ext, rest, by rw [heq, List.append_assoc], hrest⟩
    · simp only [foldGo, if_neg hle]
      obtain ⟨ext, rest, heq, hrest⟩ := ih hul hws' hlen'
      rw [emitLine_small hcur, heq]
      refine ⟨[], (u ++ ext) :: rest, by simp, ?_⟩
      intro v hv
      rcases List.mem_cons.1 hv with h | h
      · rw [h]
        have hune : u ≠ [] := by
          intro hc; rw [hc] at hu; cases hu
        rw [headWS_append hune]
        exact hu
      · exact hrest v h

theorem foldGo_nonempty {us : List Line} : ∀ {cur : Line}, cur ≠ [] →
    (∀ u ∈ us, u ≠ []) → ∀ p ∈ foldGo cur us, p ≠ [] := by
  induction us with
  | nil =>
    intro cur hc _ p hp
    exact emitLine_nonempty hc hp
  | cons u us ih =>
    intro cur hc hus p hp
    have hu : u ≠ [] := hus u (List.mem_cons_self _ _)
    have hus' : ∀ v ∈ us, v ≠ [] := fun v hv => hus v (List.mem_cons_of_mem _ hv)
    by_cases hle : cur.length + u.length ≤ 78
    · simp only [foldGo, if_pos hle] at hp
      exact ih (by simp [hc]) hus' p hp
    · simp only [foldGo, if_neg hle] at hp
      rcases List.mem_append.1 hp with h | h
      · exact emitLine_nonempty hc h
      · exact ih hu hus' p h

theorem foldGo_bound998 {us : List Line} : ∀ {cur : Line},
    ∀ p ∈ foldGo cur us, p.length ≤ 998 := by
  induction us with
  | nil =>
    intro cur p hp
    exact emitLine_bound hp
  | cons u us ih =>
    intro cur p hp
    by_cases hle : cur.length + u.length ≤ 78
    · simp only [foldGo, if_pos hle] at hp
      exact ih p hp
    · simp only [foldGo, if_neg hle] at hp
      rcases List.mem_append.1 hp with h | h
      · exact emitLine_bound h
      · exact ih p h

theorem foldGo_soft {m : Nat} {us : List Line} : ∀ {cur : Line},
    cur.length ≤ max 78 m → (∀ u ∈ us, u.length ≤ m) →
    ∀ p ∈ foldGo cur us, p.length ≤ max 78 m := by
  induction us with
  | nil =>
    intro cur hcur _ p hp
    unfold foldGo at hp
    rcases le_or_lt cur.length 998 with h | h
    · rw [emitLine_small h] at hp
      rw [List.mem_singleton.1 hp]
      exact hcur
    · have := emitLine_bound hp
      exact le_trans this (le_trans (Nat.le_of_lt h) hcur)
  | cons u us ih =>
    intro cur hcur hus p hp
    have hu : u.length ≤ m := hus u (List.mem_cons_self _ _)
    have hus' : ∀ v ∈ us, v.length ≤ m := fun v hv => hus v (List.mem_cons_of_mem _ hv)
    by_cases hle : cur.length + u.length ≤ 78
    · simp only [foldGo, if_pos hle] at hp
      refine ih ?_ hus' p hp
      have h78 : (cur ++ u).length ≤ 78 := by
        simp only [List.length_append]; omega
      exact le_trans h78 (le_max_left _ _)
    · simp only [foldGo, if_neg hle] at hp
      rcases List.mem_append.1 hp with h | h
      · rcases le_or_lt cur.length 998 with h9 | h9
        · rw [emitLine_small h9] at h
          rw [List.mem_singleton.1 h]
          exact hcur
        · have := emitLine_bound h
          exact le_trans this (le_trans (Nat.le_of_lt h9) hcur)
      · refine ih ?_ hus' p h
        exact le_trans hu (le_max_right _ _)

theorem foldLine_flatten {s : Line} (h : s.length ≤ 998) :
    (foldLine s).flatten = s := by
  unfold foldLine
  cases hu : unitsF s.length s with
  | nil =>
    have hs : s = [] := by
      have h2 := unitsF_flatten s.length (le_refl _)
      rw [hu] at h2
      simpa using h2.symm
    subst hs
    rfl
  | cons u us =>
    have hfl : (u :: us).flatten = s := by
      have h2 := unitsF_flatten s.length (le_refl _)
      rw [hu] at h2
      exact h2
    have hb : ∀ v ∈ u :: us, v.length ≤ 998 := by
      intro v hv
      have := length_le_flatten hv
      rw [hfl] at this
      omega
    rw [foldGo_flatten (hb u (List.mem_cons_self _ _))
      (fun v hv => hb v (List.mem_cons_of_mem _ hv))]
    simpa using hfl

theorem foldLine_shape {s : Line} (hne : s ≠ []) (h : s.length ≤ 998) :
    ∃ l0 rest, foldLine s = l0 :: rest ∧ l0.head? = s.head? ∧
      (∀ v ∈ rest, headWS v = true) := by
  unfold foldLine
  cases hu : unitsF s.length s with
  | nil =>
    have hs : s = [] := by
      have h2 := unitsF_flatten s.length (le_refl _)
      rw [hu] at h2
      simpa using h2.symm
    exact absurd hs hne
  | cons u us =>
    have hfl : (u :: us).flatten = s := by
      have h2 := unitsF_flatten s.length (le_refl _)
      rw [hu] at h2
      exact h2
    have hb : ∀ v ∈ u :: us, v.length ≤ 998 := by
      intro v hv
      have := length_le_flatten hv
      rw [hfl] at this
      omega
    obtain ⟨ext, rest, heq, hrest⟩ := foldGo_head_rest
      (hb u (List.mem_cons_self _ _))
      (fun v hv => unitsF_tail_headWS s.length hu hv)
      (fun v hv => hb v (List.mem_cons_of_mem _ hv))
    refine ⟨u ++ ext, rest, heq, ?_, hrest⟩
    have hune : u ≠ [] := unitsF_nonempty s.length (by rw [hu]; exact List.mem_cons_self _ _)
    rw [head?_append_left hune]
    exact unitsF_head hne s.length hu

theorem foldLine_nonempty {s : Line} (hne : s ≠ []) :
    ∀ p ∈ foldLine s, p ≠ [] := by
  unfold foldLine
  cases hu : unitsF s.length s with
  | nil =>
    have hs : s = [] := by
      have h2 := unitsF_flatten s.length (le_refl _)
      rw [hu] at h2
      simpa using h2.symm
    exact absurd hs hne
  | cons u us =>
    exact foldGo_nonempty
      (unitsF_nonempty s.length (by rw [hu]; exact List.mem_cons_self _ _))
      (fun v hv => unitsF_nonempty s.length (by rw [hu]; exact List.mem_cons_of_mem _ hv))

theorem foldLine_bound998 {s : Line} : ∀ p ∈ foldLine s, p.length ≤ 998 := by
  unfold foldLine
  cases hu : unitsF s.length s with
  | nil =>
    intro p hp
    rw [List.mem_singleton.1 hp]
    simp
  | cons u us =>
    intro p hp
    exact foldGo_bound998 p hp

theorem foldLine_soft {s : Line} {m : Nat}
    (hm : ∀ u ∈ unitsF s.length s, u.length ≤ m) :
    ∀ p ∈ foldLine s, p.length ≤ max 78 m := by
  unfold foldLine
  cases hu : unitsF s.length s with
  | nil =>
    intro p hp
    rw [List.mem_singleton.1 hp]
    simp
  | cons u us =>
    intro p hp
    refine foldGo_soft ?_ ?_ p hp
    · rw [hu] at hm
      exact le_trans (hm u (List.mem_cons_self _ _)) (le_max_right _ _)
    · intro v hv
      rw [hu] at hm
      exact hm v (List.mem_cons_of_mem _ hv)

theorem foldLine_chars {s : Line} (h : s.length ≤ 998) {p : Line}
    (hp : p ∈ foldLine s) {c : Char} (hc : c ∈ p) : c ∈ s := by
  have := foldLine_flatten h
  rw [← this]
  exact List.mem_flatten.2 ⟨p, hp, hc⟩

/-- Unfolding: join continuation lines (first octet space or tab) onto the
prior logical line. -/
def unfoldGo : Line → List Line → List Line
  | cur, [] => [cur]
  | cur, l :: rest =>
    if headWS l then unfoldGo (cur ++ l) rest else cur :: unfoldGo l rest

/-- Modelled from the spec: unfold the physical lines of a header region
into logical lines. -/
def unfoldHeader : List Line → List Line
  | [] => []
  | l :: rest => unfoldGo l rest

theorem unfoldGo_ws_append {cont : List Line} : ∀ {cur : Line} {rest : List Line},
    (∀ l ∈ cont, headWS l = true) →
    unfoldGo cur (cont ++ rest) = unfoldGo (cur ++ cont.flatten) rest := by
  induction cont with
  | nil => intro cur rest _; simp
  | cons l ls ih =>
    intro cur rest h
    have hl : headWS l = true := h l (List.mem_cons_self _ _)
    have h' : ∀ v ∈ ls, headWS v = true := fun v hv => h v (List.mem_cons_of_mem _ hv)
    simp only [List.cons_append, unfoldGo, if_pos hl]
    show unfoldGo (cur ++ l) (ls ++ rest) = _
    rw [ih h']
    simp [List.append_assoc]

/-- A well-formed folded block: a non-continuation first line followed by
continuation lines. -/
def blockOK (b : List Line) : Prop :=
  ∃ l0 rest, b = l0 :: rest ∧ headWS l0 = false ∧ ∀ v ∈ rest, headWS v = true

theorem unfoldGo_blocks {blocks : List (List Line)} : ∀ {cur : Line},
    (∀ b ∈ blocks, blockOK b) →
    unfoldGo cur blocks.flatten = cur :: blocks.map List.flatten := by
  induction blocks with
  | nil => intro cur _; rfl
  | cons b bs ih =>
    intro cur h
    obtain ⟨l0, rest, hb, hl0, hrest⟩ := h b (List.mem_cons_self _ _)
    have h' : ∀ x ∈ bs, blockOK x := fun x hx => h x (List.mem_cons_of_mem _ hx)
    subst hb
    have hsplit : ((l0 :: rest) :: bs : List (List Line)).flatten
        = l0 :: (rest ++ bs.flatten) := by simp
    rw [hsplit]
    have hnl0 : ¬ headWS l0 = true := by rw [hl0]; simp
    simp only [unfoldGo, if_neg hnl0]
    rw [unfoldGo_ws_append hrest, ih h']
    simp

theorem unfoldHeader_blocks {blocks : List (List Line)}
    (h : ∀ b ∈ blocks, blockOK b) :
    unfoldHeader blocks.flatten = blocks.map List.flatten := by
  cases blocks with
  | nil => rfl
  | cons b bs =>
    obtain ⟨l0, rest, hb, hl0, hrest⟩ := h b (List.mem_cons_self _ _)
    have h' : ∀ x ∈ bs, blockOK x := fun x hx => h x (List.mem_cons_of_mem _ hx)
    subst hb
    rw [show ((l0 :: rest) :: bs : List (List Line)).flatten
        = l0 :: (rest ++ bs.flatten) by simp]
    show unfoldGo l0 (rest ++ bs.flatten) = _
    rw [unfoldGo_ws_append hrest, unfoldGo_blocks h']
    simp

theorem splitLines_linesToOctets {ls : List Line} (h : ∀ l ∈ ls, noCRLF l) :
    splitLines (linesToOctets ls) = ls := by
  have h1 := @splitOnCharF_linesToOctets ls (linesToOctets ls).length h le_rfl
  have hstrip : ∀ l : Line, stripCR (l ++ ['\r']) = l := by
    intro l
    unfold stripCR
    rw [List.getLast?_concat]
    simp [List.dropLast_concat]
  unfold splitLines
  simp only [h1]
  have hlast : (ls.map (fun l => l ++ ['\r']) ++ [[]]).getLast? = some [] :=
    List.getLast?_concat _
  rw [if_pos hlast, List.dropLast_concat, List.map_map]
  calc (ls.map (stripCR ∘ fun l => l ++ ['\r'])) = ls.map id := by
        apply List.map_congr_left
        intro l _
        simpa using hstrip l
    _ = ls := by simp

/-! ### Header fields

Modelled from the spec: a Header is an ordered sequence of Fields; a Field
is a (name, value) pair.  Values are stored as raw octets; typed parsers
are applied lazily on access. -/

/-- A header field: name and raw value octets. -/
structure Field where
  name : Line
  value : Line
deriving DecidableEq, Repr

/-- The logical (unfolded) header line of a field: `name ": " value`. -/
def fieldLine (fd : Field) : Line := fd.name ++ ':' :: ' ' :: fd.value

/-- Generate the physical lines of one header field, applying folding. -/
def genFieldLines (fd : Field) : List Line := foldLine (fieldLine fd)

/-- Generate the physical lines of a header. -/
def genHeader (h : List Field) : List Line := (h.map genFieldLines).flatten

/-- Modelled from the spec: parse one logical header line, splitting at the
first colon; the value loses its leading whitespace.  A line with no colon
is a `MalformedHeader` and is dropped (`none`). -/
def parseFieldLine (l : Line) : Option Field :=
  match l.dropWhile (fun c => c != ':') with
  | [] => none
  | _ :: v => some ⟨l.takeWhile (fun c => c != ':'), v.dropWhile isWS⟩

/-- Parse a header region: unfold physical lines, then parse each logical
line, dropping malformed ones. -/
def parseHeader (physLines : List Line) : List Field :=
  (unfoldHeader physLines).filterMap parseFieldLine

/-- A field whose serialization is lossless: non-empty colon-free name not
beginning with whitespace, value not beginning with whitespace, no CR/LF
octets, and a logical line short enough that folding never force-breaks. -/
def wfField (fd : Field) : Prop :=
  fd.name ≠ [] ∧ (∀ c ∈ fd.name, c ≠ ':') ∧ headWS fd.name = false ∧
  headWS fd.value = false ∧ noCRLF fd.name ∧ noCRLF fd.value ∧
  (fieldLine fd).length ≤ 998

instance (fd : Field) : Decidable (wfField fd) := by
  unfold wfField; infer_instance

theorem fieldLine_ne_nil (fd : Field) : fieldLine fd ≠ [] := by
  unfold fieldLine
  intro h
  have := congrArg List.length h
  simp at this

theorem dropWhile_headWS_false {l : Line} (h : headWS l = false) :
    l.dropWhile isWS = l := by
  cases l with
  | nil => rfl
  | cons c t =>
    simp only [headWS] at h
    simp [List.dropWhile_cons, h]

theorem headWS_congr {l1 l2 : Line} (h : l1.head? = l2.head?) :
    headWS l1 = headWS l2 := by
  cases l1 with
  | nil =>
    cases l2 with
    | nil => rfl
    | cons c t => simp at h
  | cons c t =>
    cases l2 with
    | nil => simp at h
    | cons d u =>
      simp at h
      simp [headWS, h]

theorem parseFieldLine_fieldLine {fd : Field} (h : wfField fd) :
    parseFieldLine (fieldLine fd) = some fd := by
  obtain ⟨hne, hc, hnws, hvws, _, _, _⟩ := h
  have hall : ∀ c ∈ fd.name, (c != ':') = true := by
    intro c hcm; simpa using hc c hcm
  have hdrop : (fieldLine fd).dropWhile (fun c => c != ':') = ':' :: ' ' :: fd.value := by
    unfold fieldLine
    exact dropWhile_append_stop hall (by simp)
  have htake : (fieldLine fd).takeWhile (fun c => c != ':') = fd.name := by
    unfold fieldLine
    exact takeWhile_append_stop hall (by simp)
  unfold parseFieldLine
  rw [hdrop]
  simp only [htake]
  have hws : (' ' :: fd.value : Line).dropWhile isWS = fd.value := by
    have : isWS ' ' = true := by decide
    simp [List.dropWhile_cons, this, dropWhile_headWS_false hvws]
  rw [hws]

theorem headWS_fieldLine {fd : Field} (h : wfField fd) :
    headWS (fieldLine fd) = false := by
  obtain ⟨hne, _, hnws, _, _, _, _⟩ := h
  unfold fieldLine
  rw [headWS_append hne]
  exact hnws

theorem genFieldLines_blockOK {fd : Field} (h : wfField fd) :
    blockOK (genFieldLines fd) := by
  obtain ⟨l0, rest, heq, hhd, hrest⟩ :=
    foldLine_shape (fieldLine_ne_nil fd) h.2.2.2.2.2.2
  refine ⟨l0, rest, heq, ?_, hrest⟩
  rw [headWS_congr hhd]
  exact headWS_fieldLine h

theorem genFieldLines_flatten {fd : Field} (h : wfField fd) :
    (genFieldLines fd).flatten = fieldLine fd :=
  foldLine_flatten h.2.2.2.2.2.2

theorem filterMap_id_of_some {α : Type} {f : α → Option α} {l : List α}
    (h : ∀ a ∈ l, f a = some a) : l.filterMap f = l := by
  induction l with
  | nil => rfl
  | cons a t ih =>
    rw [List.filterMap_cons, h a (List.mem_cons_self _ _),
      ih fun x hx => h x (List.mem_cons_of_mem _ hx)]

theorem parseHeader_genHeader {h : List Field} (hw : ∀ fd ∈ h, wfField fd) :
    parseHeader (genHeader h) = h := by
  unfold parseHeader genHeader
  rw [unfoldHeader_blocks]
  · rw [List.map_map]
    have hmap : h.map (List.flatten ∘ genFieldLines) = h.map fieldLine := by
      apply List.map_congr_left
      intro fd hfd
      exact genFieldLines_flatten (hw fd hfd)
    rw [hmap, List.filterMap_map]
    apply filterMap_id_of_some
    intro fd hfd
    exact parseFieldLine_fieldLine (hw fd hfd)
  · intro b hb
    obtain ⟨fd, hfd, hbe⟩ := List.mem_map.1 hb
    rw [← hbe]
    exact genFieldLines_blockOK (hw fd hfd)

theorem genHeader_nonempty {h : List Field} :
    ∀ l ∈ genHeader h, l ≠ [] := by
  intro l hl
  obtain ⟨b, hb, hlb⟩ := List.mem_flatten.1 hl
  obtain ⟨fd, hfd, hbe⟩ := List.mem_map.1 hb
  rw [← hbe] at hlb
  exact foldLine_nonempty (fieldLine_ne_nil fd) l hlb

theorem noCRLF_fieldLine {fd : Field} (h : wfField fd) : noCRLF (fieldLine fd) := by
  obtain ⟨_, _, _, _, hn, hv, _⟩ := h
  intro c hcm
  unfold fieldLine at hcm
  rcases List.mem_append.1 hcm with h1 | h1
  · exact hn c h1
  · rcases List.mem_cons.1 h1 with h2 | h2
    · subst h2; exact ⟨by decide, by decide⟩
    · rcases List.mem_cons.1 h2 with h3 | h3
      · subst h3; exact ⟨by decide, by decide⟩
      · exact hv c h3

theorem genHeader_noCRLF {h : List Field} (hw : ∀ fd ∈ h, wfField fd) :
    ∀ l ∈ genHeader h, noCRLF l := by
  intro l hl c hc
  obtain ⟨b, hb, hlb⟩ := List.mem_flatten.1 hl
  obtain ⟨fd, hfd, hbe⟩ := List.mem_map.1 hb
  rw [← hbe] at hlb
  have hcs : c ∈ fieldLine fd :=
    foldLine_chars (hw fd hfd).2.2.2.2.2.2 hlb hc
  exact noCRLF_fieldLine (hw fd hfd) c hcs

theorem genHeader_bound998 {h : List Field} :
    ∀ l ∈ genHeader h, l.length ≤ 998 := by
  intro l hl
  obtain ⟨b, hb, hlb⟩ := List.mem_flatten.1 hl
  obtain ⟨fd, hfd, hbe⟩ := List.mem_map.1 hb
  rw [← hbe] at hlb
  exact foldLine_bound998 l hlb

/-! ### The MIME part tree

Modelled from the spec: a Part owns one Header and one Body; a Body is
either a leaf (opaque content octets) or a multipart (preamble, ordered
children, epilogue).  The boundary of a multipart is drawn from the
parent's `Content-Type` parameter, so it lives in the header. -/

/-- A MIME part: a header together with a leaf body or a multipart body. -/
inductive Part where
  | leaf (header : List Field) (content : List Line) : Part
  | multi (header : List Field) (preamble : List Line) (children : List Part)
      (epilogue : List Line) : Part

mutual

def decEqPart : (a b : Part) → Decidable (a = b)
  | .leaf h1 c1, .leaf h2 c2 =>
    if hh : h1 = h2 then
      if hc : c1 = c2 then isTrue (by rw [hh, hc]) else isFalse (by simp [hc])
    else isFalse (by simp [hh])
  | .leaf _ _, .multi _ _ _ _ => isFalse (by simp)
  | .multi _ _ _ _, .leaf _ _ => isFalse (by simp)
  | .multi h1 p1 cs1 e1, .multi h2 p2 cs2 e2 =>
    if hh : h1 = h2 then
      if hp : p1 = p2 then
        match decEqParts cs1 cs2 with
        | isTrue hcs =>
          if he : e1 = e2 then isTrue (by rw [hh, hp, hcs, he])
          else isFalse (by simp [he])
        | isFalse hcs => isFalse (by simp [hcs])
      else isFalse (by simp [hp])
    else isFalse (by simp [hh])

def decEqParts : (a b : List Part) → Decidable (a = b)
  | [], [] => isTrue rfl
  | [], _ :: _ => isFalse (by simp)
  | _ :: _, [] => isFalse (by simp)
  | a :: as, b :: bs =>
    match decEqPart a b, decEqParts as bs with
    | isTrue h1, isTrue h2 => isTrue (by rw [h1, h2])
    | isFalse h1, _ => isFalse (by simp [h1])
    | _, isFalse h2 => isFalse (by simp [h2])

end

instance : DecidableEq Part := decEqPart

/-- The header of a part. -/
def Part.header : Part → List Field
  | .leaf h _ => h
  | .multi h _ _ _ => h

/-- Whether a part's body is multipart-shaped. -/
def Part.isMultipartBody : Part → Bool
  | .leaf _ _ => false
  | .multi _ _ _ _ => true

/-- Case-insensitive lookup of the first field with the given name. -/
def findField (h : List Field) (nm : Line) : Option Field :=
  h.find? (fun fd => lowerLine fd.name == lowerLine nm)

/-- A parsed media type: top-level type, subtype, ordered parameters. -/
structure MediaTypeV where
  top : Line
  sub : Line
  params : List (Line × Line)
deriving DecidableEq, Repr

/-- Modelled from the spec: parse one `name=value` media type parameter;
the name is lowercased, the value keeps its case and loses surrounding
quotes. -/
def parseParam (p : Line) : Line × Line :=
  (lowerLine (trim (p.takeWhile (fun c => c != '='))),
   unquote (trim ((p.dropWhile (fun c => c != '=')).drop 1)))

/-- Modelled from the spec: parse a `type/subtype; name=value; …` media
type value; type and subtype tokens are normalized to lowercase. -/
def parseMediaType (v : Line) : MediaTypeV :=
  match splitOnChar ';' v with
  | [] => ⟨"text".toList, "plain".toList, []⟩
  | t :: ps =>
    let tt := trim t
    ⟨lowerLine (tt.takeWhile (fun c => c != '/')),
     lowerLine (trim ((tt.dropWhile (fun c => c != '/')).drop 1)),
     ps.map parseParam⟩

/-- The default effective media type of a part with no `Content-Type`
header: `text/plain; charset=us-ascii`. -/
def defaultMediaType : MediaTypeV :=
  ⟨"text".toList, "plain".toList, [("charset".toList, "us-ascii".toList)]⟩

/-- Modelled from the spec: the effective media type of a header — the
parsed `Content-Type` value, or the default when absent. -/
def effectiveMediaType (h : List Field) : MediaTypeV :=
  match findField h "Content-Type".toList with
  | none => defaultMediaType
  | some fd => parseMediaType fd.value

/-- The effective top-level type of a header. -/
def effTop (h : List Field) : Line := (effectiveMediaType h).top

/-- The `boundary` parameter of the effective media type, if any. -/
def boundaryParam (h : List Field) : Option Line :=
  ((effectiveMediaType h).params.find?
    (fun p => p.1 == ("boundary".toList : Line))).map Prod.snd

/-- The dash-dash boundary delimiter line opening each child. -/
def delim (b : Line) : Line := '-' :: '-' :: b

/-- The closing boundary delimiter line. -/
def closeDelim (b : Line) : Line := '-' :: '-' :: (b ++ ['-', '-'])

/-- Modelled from the spec: the generator verifies a candidate boundary by
scanning the children's serialized output — the boundary (and its
delimiter form) must not be a prefix of any line. -/
def safeBoundary (b : Line) (ls : List Line) : Bool :=
  ls.all (fun l => !(b.isPrefixOf l) && !((delim b).isPrefixOf l))

/-- Modelled from the spec: the deterministic fresh boundary — longer than
every line of the scanned output, hence never a line prefix. -/
def freshBoundary (ls : List Line) : Line := List.replicate (linesMax ls + 1) 'z'

/-- Modelled from the spec: the generator keeps a declared boundary that
scans safely, otherwise chooses a fresh one. -/
def pickBoundary (declared : Option Line) (childLines : List Line) : Line :=
  match declared with
  | some b =>
    if !b.isEmpty && safeBoundary b childLines then b else freshBoundary childLines
  | none => freshBoundary childLines

mutual

/-- Modelled from the spec: generate the physical lines of a part — header
fields (folded), an empty separator line, then the body: a leaf's content
verbatim, or preamble, `--boundary`-delimited children, the closing
delimiter, and epilogue. -/
def genPart : Part → List Line
  | .leaf h content => genHeader h ++ [] :: content
  | .multi h pre cs epi =>
    let blocks := genParts cs
    let b := pickBoundary (boundaryParam h) blocks.flatten
    genHeader h ++ [] :: (pre ++ (blocks.map (fun blk => delim b :: blk)).flatten
      ++ closeDelim b :: epi)

/-- Generate each child of a multipart. -/
def genParts : List Part → List (List Line)
  | [] => []
  | c :: cs => genPart c :: genParts cs

end

/-- The boundary a generator invocation actually uses for a multipart
part (the declared one when safe, else a fresh one). -/
def usedBoundary : Part → Line
  | .leaf _ _ => []
  | .multi h _ cs _ => pickBoundary (boundaryParam h) (genParts cs).flatten

mutual

/-- Modelled from the spec: permissive fuelled message parser.  Split at
the first empty line; parse the header; if the effective type is
multipart with a non-empty boundary parameter, split the body region at
boundary delimiter lines into preamble, children (parsed recursively) and
epilogue; otherwise (including a missing or empty boundary — the
`BoundaryMissing` degradation) the body is a single opaque leaf carrying
the body octets. -/
def parsePartF : Nat → List Line → Part
  | 0, lines => .leaf [] lines
  | f + 1, lines =>
    let hl := lines.takeWhile (fun l => !l.isEmpty)
    let body := (lines.dropWhile (fun l => !l.isEmpty)).drop 1
    let h := parseHeader hl
    if effTop h = "multipart".toList then
      match boundaryParam h with
      | some b =>
        if b.isEmpty then .leaf h body
        else
          let pre := body.takeWhile (fun l => !(delim b).isPrefixOf l)
          let after := body.dropWhile (fun l => !(delim b).isPrefixOf l)
          let r := parsePartsF f b after
          .multi h pre r.1 r.2
      | none => .leaf h body
    else .leaf h body

/-- Parse the delimited children of a multipart body: each `--boundary`
line opens a child running to the next delimiter; a line opening with the
closing delimiter ends the list, the remainder being the epilogue. -/
def parsePartsF : Nat → Line → List Line → List Part × List Line
  | 0, _, rest => ([], rest)
  | f + 1, b, lines =>
    match lines with
    | [] => ([], [])
    | d :: rest =>
      if (closeDelim b).isPrefixOf d then ([], rest)
      else
        let blk := rest.takeWhile (fun l => !(delim b).isPrefixOf l)
        let rest2 := rest.dropWhile (fun l => !(delim b).isPrefixOf l)
        let r := parsePartsF f b rest2
        (parsePartF f blk :: r.1, r.2)

end

/-- Parse a message from its physical lines (fuel amply covering any
nesting the input can exhibit). -/
def parse (lines : List Line) : Part := parsePartF (lines.length + 1) lines

/-- Parse a message from its raw octets. -/
def parseOctets (s : List Char) : Part := parse (splitLines s)

/-- Generate the raw octets of a message. -/
def generateOctets (p : Part) : List Char := linesToOctets (genPart p)

mutual

/-- The number of parts in a tree (each list tail also counts one, so the
measure strictly dominates the fuel the parser consumes). -/
def Part.size : Part → Nat
  | .leaf _ _ => 1
  | .multi _ _ cs _ => 1 + sizeParts cs

/-- Combined size of a list of sibling parts. -/
def sizeParts : List Part → Nat
  | [] => 1
  | c :: cs => c.size + sizeParts cs

end

/-- A header that the parser will not treat as multipart. -/
def notMultipartTyped (h : List Field) : Prop :=
  effTop h ≠ "multipart".toList ∨ boundaryParam h = none ∨ boundaryParam h = some []

instance (h : List Field) : Decidable (notMultipartTyped h) := by
  unfold notMultipartTyped; infer_instance

/-- The boundary declared in a multipart header is present, non-empty,
CR/LF-free, scans safely against the children's generated lines, and no
preamble line opens with its delimiter form. -/
def boundaryOK (h : List Field) (cs : List Part) (pre : List Line) : Prop :=
  match boundaryParam h with
  | some b => b ≠ [] ∧ noCRLF b ∧ safeBoundary b (genParts cs).flatten = true ∧
      ∀ l ∈ pre, (delim b).isPrefixOf l = false
  | none => False

instance (h : List Field) (cs : List Part) (pre : List Line) :
    Decidable (boundaryOK h cs pre) := by
  unfold boundaryOK
  cases boundaryParam h with
  | none => infer_instance
  | some b => infer_instance

mutual

/-- Well-formedness of a part for lossless serialization: well-formed
fields, CR/LF-free content, leaves not multipart-typed, multiparts
multipart-typed with a safe declared boundary. -/
def wfPart : Part → Prop
  | .leaf h content =>
    (∀ fd ∈ h, wfField fd) ∧ (∀ l ∈ content, noCRLF l) ∧ notMultipartTyped h
  | .multi h pre cs epi =>
    (∀ fd ∈ h, wfField fd) ∧ effTop h = "multipart".toList ∧ boundaryOK h cs pre ∧
    (∀ l ∈ pre, noCRLF l) ∧ (∀ l ∈ epi, noCRLF l) ∧ wfParts cs

/-- Well-formedness of a list of sibling parts. -/
def wfParts : List Part → Prop
  | [] => True
  | c :: cs => wfPart c ∧ wfParts cs

end

mutual

def decWfPart : (p : Part) → Decidable (wfPart p)
  | .leaf h content => by unfold wfPart; infer_instance
  | .multi h pre cs epi => by
    unfold wfPart
    have := decWfParts cs
    infer_instance

def decWfParts : (l : List Part) → Decidable (wfParts l)
  | [] => by unfold wfParts; infer_instance
  | c :: cs => by
    unfold wfParts
    have := decWfPart c
    have := decWfParts cs
    infer_instance

end

instance (p : Part) : Decidable (wfPart p) := decWfPart p

instance (l : List Part) : Decidable (wfParts l) := decWfParts l

theorem isPrefixOf_length {l1 l2 : Line} (h : l1.isPrefixOf l2 = true) :
    l1.length ≤ l2.length := by
  induction l1 generalizing l2 with
  | nil => simp
  | cons a as ih =>
    cases l2 with
    | nil => simp [List.isPrefixOf] at h
    | cons b bs =>
      simp only [List.isPrefixOf, Bool.and_eq_true] at h
      have := ih h.2
      simp
      omega

theorem isPrefixOf_self_append (l t : Line) : l.isPrefixOf (l ++ t) = true := by
  induction l with
  | nil => simp [List.isPrefixOf]
  | cons a as ih => simp [List.isPrefixOf, ih]

theorem isPrefixOf_long {l1 l2 : Line} (h : l2.length < l1.length) :
    l1.isPrefixOf l2 = false := by
  cases hp : l1.isPrefixOf l2 with
  | false => rfl
  | true =>
    have := isPrefixOf_length hp
    omega

theorem safeBoundary_spec {b : Line} {ls : List Line}
    (h : safeBoundary b ls = true) {l : Line} (hl : l ∈ ls) :
    b.isPrefixOf l = false ∧ (delim b).isPrefixOf l = false := by
  unfold safeBoundary at h
  have := List.all_eq_true.1 h l hl
  simp only [Bool.and_eq_true, Bool.not_eq_true'] at this
  exact this

theorem freshBoundary_length (ls : List Line) :
    (freshBoundary ls).length = linesMax ls + 1 := by
  simp [freshBoundary]

theorem freshBoundary_safe (ls : List Line) :
    safeBoundary (freshBoundary ls) ls = true := by
  unfold safeBoundary
  apply List.all_eq_true.2
  intro l hl
  have h1 : l.length < (freshBoundary ls).length := by
    rw [freshBoundary_length]
    have := le_linesMax hl
    omega
  have h2 : l.length < (delim (freshBoundary ls)).length := by
    simp only [delim, List.length_cons]
    omega
  simp [isPrefixOf_long h1, isPrefixOf_long h2]

theorem pickBoundary_declared {b : Line} {ls : List Line} (hne : b ≠ [])
    (hsafe : safeBoundary b ls = true) :
    pickBoundary (some b) ls = b := by
  have hbe : b.isEmpty = false := by
    cases b with
    | nil => exact absurd rfl hne
    | cons c t => rfl
  unfold pickBoundary
  simp [hbe, hsafe]

theorem pickBoundary_safe (declared : Option Line) (ls : List Line) :
    safeBoundary (pickBoundary declared ls) ls = true := by
  cases declared with
  | none => exact freshBoundary_safe ls
  | some b =>
    show safeBoundary
      (if (!b.isEmpty && safeBoundary b ls) = true then b else freshBoundary ls) ls = true
    by_cases hb : (!b.isEmpty && safeBoundary b ls) = true
    · rw [if_pos hb]
      simp only [Bool.and_eq_true] at hb
      exact hb.2
    · rw [if_neg hb]
      exact freshBoundary_safe ls

theorem usedBoundary_safe (h : List Field) (pre : List Line) (cs : List Part)
    (epi : List Line) :
    safeBoundary (usedBoundary (.multi h pre cs epi)) (genParts cs).flatten = true := by
  show safeBoundary (pickBoundary (boundaryParam h) (genParts cs).flatten)
    (genParts cs).flatten = true
  exact pickBoundary_safe _ _

theorem isPrefixOf_refl (l : Line) : l.isPrefixOf l = true := by
  have := isPrefixOf_self_append l []
  rwa [List.append_nil] at this

theorem closeDelim_eq (b : Line) : closeDelim b = delim b ++ ['-', '-'] := rfl

theorem delim_isPrefixOf_close (b : Line) :
    (delim b).isPrefixOf (closeDelim b) = true := by
  rw [closeDelim_eq]
  exact isPrefixOf_self_append _ _

theorem close_not_isPrefixOf_delim (b : Line) :
    (closeDelim b).isPrefixOf (delim b) = false := by
  apply isPrefixOf_long
  simp [closeDelim, delim]

theorem bnot_isEmpty_of_ne {α : Type} {A : List α} (h : A ≠ []) :
    (!A.isEmpty) = true := by
  cases A with
  | nil => exact absurd rfl h
  | cons a t => rfl

theorem genParts_eq_map (cs : List Part) : genParts cs = cs.map genPart := by
  induction cs with
  | nil => rfl
  | cons c t ih => rw [genParts, ih, List.map_cons]

theorem wfParts_cons {c : Part} {cs : List Part} :
    wfParts (c :: cs) ↔ wfPart c ∧ wfParts cs := by
  rw [wfParts]

theorem wfParts_forall {cs : List Part} (h : wfParts cs) : ∀ c ∈ cs, wfPart c := by
  induction cs with
  | nil => intro c hc; cases hc
  | cons a t ih =>
    intro c hc
    rw [wfParts_cons] at h
    rcases List.mem_cons.1 hc with h1 | h1
    · rw [h1]; exact h.1
    · exact ih h.2 c h1

theorem Part.size_pos : ∀ T : Part, 1 ≤ T.size
  | .leaf _ _ => le_refl _
  | .multi _ _ cs _ => by rw [Part.size]; omega

theorem sizeParts_pos : ∀ cs : List Part, 1 ≤ sizeParts cs
  | [] => le_refl _
  | c :: cs => by
    rw [sizeParts]
    have := Part.size_pos c
    omega

theorem length_flatten_map_cons (L : List (List Line)) (d : Line) :
    ((L.map (fun blk => d :: blk)).flatten).length = L.length + L.flatten.length := by
  induction L with
  | nil => rfl
  | cons a t ih =>
    simp only [List.map_cons, List.flatten_cons, List.length_append, List.length_cons, ih]
    simp
    omega

mutual

theorem size_le_gen : ∀ T : Part, T.size ≤ (genPart T).length + 1
  | .leaf h content => by
    rw [Part.size]
    omega
  | .multi h pre cs epi => by
    rw [Part.size, genPart]
    have h2 := sizeParts_le_gen cs
    have h3 : (genParts cs).length = cs.length := by
      rw [genParts_eq_map]; simp
    simp only [List.length_append, List.length_cons,
      length_flatten_map_cons]
    omega

theorem sizeParts_le_gen : ∀ cs : List Part,
    sizeParts cs ≤ (genParts cs).flatten.length + cs.length + 1
  | [] => by rw [sizeParts]; simp [genParts]
  | c :: cs => by
    rw [sizeParts, genParts]
    have h1 := size_le_gen c
    have h2 := sizeParts_le_gen cs
    simp only [List.flatten_cons, List.length_append, List.length_cons]
    omega

end

mutual

theorem genPart_noCRLF : ∀ T : Part, wfPart T → ∀ l ∈ genPart T, noCRLF l
  | .leaf h content => by
    intro hw l hl
    rw [wfPart] at hw
    rw [genPart] at hl
    rcases List.mem_append.1 hl with h1 | h1
    · exact genHeader_noCRLF hw.1 l h1
    · rcases List.mem_cons.1 h1 with h2 | h2
      · rw [h2]; intro c hc; cases hc
      · exact hw.2.1 l h2
  | .multi h pre cs epi => by
    intro hw l hl
    rw [wfPart] at hw
    obtain ⟨hf, htop, hbok, hpre, hepi, hcs⟩ := hw
    rw [genPart] at hl
    unfold boundaryOK at hbok
    cases hbp : boundaryParam h with
    | none => rw [hbp] at hbok; exact absurd hbok id
    | some b =>
      rw [hbp] at hbok
      obtain ⟨hbne, hbcr, hbsafe, _⟩ := hbok
      have hbpick : pickBoundary (boundaryParam h) (genParts cs).flatten = b := by
        rw [hbp]; exact pickBoundary_declared hbne hbsafe
      rw [hbpick] at hl
      have hdel : noCRLF (delim b) := by
        intro c hc
        rcases List.mem_cons.1 hc with h1 | h1
        · subst h1; exact ⟨by decide, by decide⟩
        · rcases List.mem_cons.1 h1 with h2 | h2
          · subst h2; exact ⟨by decide, by decide⟩
          · exact hbcr c h2
      rcases List.mem_append.1 hl with h1 | h1
      · exact genHeader_noCRLF hf l h1
      · rcases List.mem_cons.1 h1 with h2 | h2
        · rw [h2]; intro c hc; cases hc
        · rcases List.mem_append.1 h2 with h3 | h3
          · rcases List.mem_append.1 h3 with h4 | h4
            · exact hpre l h4
            · obtain ⟨blk2, hblk2, hlb⟩ := List.mem_flatten.1 h4
              obtain ⟨blk, hblk, hbe⟩ := List.mem_map.1 hblk2
              rw [← hbe] at hlb
              rcases List.mem_cons.1 hlb with h5 | h5
              · rw [h5]; exact hdel
              · exact genParts_noCRLF cs hcs l (List.mem_flatten.2 ⟨blk, hblk, h5⟩)
          · rcases List.mem_cons.1 h3 with h4 | h4
            · rw [h4]
              intro c hc
              rw [closeDelim_eq] at hc
              rcases List.mem_append.1 hc with h5 | h5
              · exact hdel c h5
              · rcases List.mem_cons.1 h5 with h6 | h6
                · subst h6; exact ⟨by decide, by decide⟩
                · rcases List.mem_cons.1 h6 with h7 | h7
                  · subst h7; exact ⟨by decide, by decide⟩
                  · cases h7
            · exact hepi l h4

theorem genParts_noCRLF : ∀ cs : List Part, wfParts cs →
    ∀ l ∈ (genParts cs).flatten, noCRLF l
  | [] => by intro _ l hl; simp [genParts] at hl
  | c :: cs => by
    intro hw l hl
    rw [wfParts] at hw
    rw [genParts] at hl
    simp only [List.flatten_cons] at hl
    rcases List.mem_append.1 hl with h1 | h1
    · exact genPart_noCRLF c hw.1 l h1
    · exact genParts_noCRLF cs hw.2 l h1

end

theorem delimited_cons (b : Line) (cs : List Part) (epi : List Line) :
    ∃ d0 t, ((genParts cs).map (fun blk => delim b :: blk)).flatten
        ++ closeDelim b :: epi = d0 :: t ∧ (delim b).isPrefixOf d0 = true := by
  cases cs with
  | nil =>
    refine ⟨closeDelim b, epi, ?_, delim_isPrefixOf_close b⟩
    simp [genParts]
  | cons c cs' =>
    refine ⟨delim b, genPart c ++ (((genParts cs').map (fun blk => delim b :: blk)).flatten
      ++ closeDelim b :: epi), ?_, isPrefixOf_refl _⟩
    rw [genParts]
    simp [List.append_assoc]

theorem roundtripAux : ∀ f : Nat,
    (∀ T : Part, wfPart T → T.size ≤ f → parsePartF f (genPart T) = T) ∧
    (∀ (cs : List Part) (b : Line) (epi : List Line), wfParts cs → sizeParts cs ≤ f →
      (∀ l ∈ (genParts cs).flatten, (delim b).isPrefixOf l = false) →
      parsePartsF f b
        (((genParts cs).map (fun blk => delim b :: blk)).flatten ++ closeDelim b :: epi)
        = (cs, epi)) := by
  intro f
  induction f with
  | zero =>
    constructor
    · intro T _ hs
      have := Part.size_pos T
      omega
    · intro cs b epi _ hs _
      have := sizeParts_pos cs
      omega
  | succ f ih =>
    constructor
    · intro T hw hs
      cases T with
      | leaf h content =>
        rw [wfPart] at hw
        obtain ⟨hf, hcont, hnm⟩ := hw
        have hnn : ∀ l ∈ genHeader h, (fun l : Line => !l.isEmpty) l = true := by
          intro l hl
          exact bnot_isEmpty_of_ne (genHeader_nonempty l hl)
        have hgen : genPart (Part.leaf h content) = genHeader h ++ [] :: content := by
          rw [genPart]
        have htake : (genHeader h ++ [] :: content).takeWhile (fun l => !l.isEmpty)
            = genHeader h := takeWhile_append_stop hnn rfl
        have hdrop : (genHeader h ++ [] :: content).dropWhile (fun l => !l.isEmpty)
            = [] :: content := dropWhile_append_stop hnn rfl
        rw [hgen]
        simp only [parsePartF]
        rw [htake, hdrop]
        simp only [List.drop_succ_cons, List.drop_zero]
        rw [parseHeader_genHeader hf]
        unfold notMultipartTyped at hnm
        rcases hnm with hnm | hnm | hnm
        · rw [if_neg hnm]
        · by_cases htop : effTop h = "multipart".toList
          · rw [if_pos htop, hnm]
          · rw [if_neg htop]
        · by_cases htop : effTop h = "multipart".toList
          · rw [if_pos htop, hnm]
            rfl
          · rw [if_neg htop]
      | multi h pre cs epi =>
        rw [wfPart] at hw
        obtain ⟨hf, htop, hbok, hpre, hepi, hcs⟩ := hw
        unfold boundaryOK at hbok
        cases hbp : boundaryParam h with
        | none =>
          rw [hbp] at hbok
          exact absurd hbok id
        | some b =>
          rw [hbp] at hbok
          obtain ⟨hbne, hbcr, hbsafe, hpresafe⟩ := hbok
          have hbpick : pickBoundary (boundaryParam h) (genParts cs).flatten = b := by
            rw [hbp]
            exact pickBoundary_declared hbne hbsafe
          have hgen : genPart (Part.multi h pre cs epi)
              = genHeader h ++ [] :: (pre
                ++ (((genParts cs).map (fun blk => delim b :: blk)).flatten
                  ++ closeDelim b :: epi)) := by
            rw [genPart]
            rw [hbpick, List.append_assoc]
          have hnn : ∀ l ∈ genHeader h, (fun l : Line => !l.isEmpty) l = true := by
            intro l hl
            exact bnot_isEmpty_of_ne (genHeader_nonempty l hl)
          obtain ⟨d0, t, hX, hd0⟩ := delimited_cons b cs epi
          have hpreall : ∀ l ∈ pre, (fun l : Line => !(delim b).isPrefixOf l) l = true := by
            intro l hl
            show (!(delim b).isPrefixOf l) = true
            rw [hpresafe l hl]
            rfl
          have hd0f : (fun l : Line => !(delim b).isPrefixOf l) d0 = false := by
            show (!(delim b).isPrefixOf d0) = false
            rw [hd0]
            rfl
          have hbie : b.isEmpty = false := by
            cases b with
            | nil => exact absurd rfl hbne
            | cons x y => rfl
          rw [hgen, hX]
          simp only [parsePartF]
          have htake2 : (genHeader h ++ [] :: (pre ++ d0 :: t)).takeWhile
              (fun l => !l.isEmpty) = genHeader h :=
            takeWhile_append_stop hnn rfl
          have hdrop2 : (genHeader h ++ [] :: (pre ++ d0 :: t)).dropWhile
              (fun l => !l.isEmpty) = [] :: (pre ++ d0 :: t) :=
            dropWhile_append_stop hnn rfl
          rw [htake2, hdrop2]
          simp only [List.drop_succ_cons, List.drop_zero]
          rw [parseHeader_genHeader hf, if_pos htop]
          split
          next b2 heq =>
            rw [hbp] at heq
            injection heq with hbb
            subst hbb
            rw [if_neg (by simp [hbie])]
            have htake3 : (pre ++ d0 :: t).takeWhile
                (fun l => !(delim b).isPrefixOf l) = pre :=
              takeWhile_append_stop hpreall hd0f
            have hdrop3 : (pre ++ d0 :: t).dropWhile
                (fun l => !(delim b).isPrefixOf l) = d0 :: t :=
              dropWhile_append_stop hpreall hd0f
            rw [htake3, hdrop3, ← hX]
            have hsz : sizeParts cs ≤ f := by
              rw [Part.size] at hs
              omega
            have hsafe' : ∀ l ∈ (genParts cs).flatten, (delim b).isPrefixOf l = false :=
              fun l hl => (safeBoundary_spec hbsafe hl).2
            rw [ih.2 cs b epi hcs hsz hsafe']
          next heq =>
            rw [hbp] at heq
            cases heq
    · intro cs b epi hcs hs hsafe
      cases cs with
      | nil =>
        simp only [genParts, List.map_nil, List.flatten_nil, List.nil_append]
        simp only [parsePartsF]
        rw [if_pos (isPrefixOf_refl _)]
      | cons c cs' =>
        rw [wfParts_cons] at hcs
        have hshape : ((genParts (c :: cs')).map (fun blk => delim b :: blk)).flatten
            ++ closeDelim b :: epi
            = delim b :: (genPart c
              ++ (((genParts cs').map (fun blk => delim b :: blk)).flatten
                ++ closeDelim b :: epi)) := by
          rw [genParts]
          simp [List.append_assoc]
        rw [hshape]
        simp only [parsePartsF]
        rw [if_neg (by rw [close_not_isPrefixOf_delim]; simp)]
        obtain ⟨d0, t, hX, hd0⟩ := delimited_cons b cs' epi
        have hgall : ∀ l ∈ genPart c, (fun l : Line => !(delim b).isPrefixOf l) l = true := by
          intro l hl
          have hm : l ∈ (genParts (c :: cs')).flatten := by
            rw [genParts]
            simp only [List.flatten_cons]
            exact List.mem_append.2 (Or.inl hl)
          show (!(delim b).isPrefixOf l) = true
          rw [hsafe l hm]
          rfl
        have hd0f : (fun l : Line => !(delim b).isPrefixOf l) d0 = false := by
          show (!(delim b).isPrefixOf d0) = false
          rw [hd0]
          rfl
        rw [hX, takeWhile_append_stop hgall hd0f, dropWhile_append_stop hgall hd0f, ← hX]
        rw [sizeParts] at hs
        have hsc : c.size ≤ f := by
          have := sizeParts_pos cs'
          omega
        have hscs : sizeParts cs' ≤ f := by
          have := Part.size_pos c
          omega
        have hsafe' : ∀ l ∈ (genParts cs').flatten, (delim b).isPrefixOf l = false := by
          intro l hl
          apply hsafe
          rw [genParts]
          simp only [List.flatten_cons]
          exact List.mem_append.2 (Or.inr hl)
        rw [ih.1 c hcs.1 hsc, ih.2 cs' b epi hcs.2 hscs hsafe']

/-- Line-level round trip: parsing the generated lines of a well-formed
part recovers the part. -/
theorem parse_genPart {T : Part} (hw : wfPart T) : parse (genPart T) = T := by
  unfold parse
  have h1 := size_le_gen T
  exact (roundtripAux ((genPart T).length + 1)).1 T hw h1

/-- Octet-level round trip: parsing the generated octets of a well-formed
part recovers the part. -/
theorem parseOctets_generateOctets {T : Part} (hw : wfPart T) :
    parseOctets (generateOctets T) = T := by
  unfold parseOctets generateOctets
  rw [splitLines_linesToOctets (genPart_noCRLF T hw)]
  exact parse_genPart hw

/-! ### The messageBuilder overlay

Modelled from the spec: the builder holds an expeditor, recipients,
copy-recipients, blind-copy-recipients, a subject, a text part (plain, or
HTML with an optional plain alternative and embedded objects), and
attachments; `construct` produces a Message tree per the decision table,
and sets `Date`, `From`, `To`, `Cc`, `Bcc`, `Subject`, `MIME-Version` and
`Message-ID` on the outermost part. -/

/-- An embedded object of an HTML text part: its identifier (the Content-ID
without angle brackets), media type value, and content lines. -/
structure EmbObj where
  id : Line
  mtypeVal : Line
  data : List Line
deriving DecidableEq, Repr

/-- An attachment: media type value and content lines. -/
structure AttachmentV where
  mtypeVal : Line
  data : List Line
deriving DecidableEq, Repr

/-- The builder's text part: plain, or HTML with an optional plain
alternative and embedded objects. -/
inductive TextPartKind where
  | plain (charset : Line) (text : List Line) : TextPartKind
  | html (charset : Line) (htmlText : List Line) (plainAlt : Option (List Line))
      (objects : List EmbObj) : TextPartKind
deriving DecidableEq, Repr

/-- The state of a messageBuilder. -/
structure messageBuilder where
  expeditor : Line
  recipients : List Line
  ccRecipients : List Line
  bccRecipients : List Line
  subjectText : Line
  dateValue : Line
  messageIdValue : Line
  textPart : TextPartKind
  attachments : List AttachmentV
deriving DecidableEq, Repr

/-- A `Content-Type` field with the given value. -/
def ctField (v : Line) : Field := ⟨"Content-Type".toList, v⟩

/-- A text leaf part: `text/<sub>; charset=<charset>` with the given
content. -/
def textLeaf (charset sub : Line) (txt : List Line) : Part :=
  .leaf [ctField ("text/".toList ++ sub ++ "; charset=".toList ++ charset)] txt

/-- An embedded object part: its media type and a `Content-ID` field whose
value is the object identifier in angle brackets. -/
def objPart (o : EmbObj) : Part :=
  .leaf [ctField o.mtypeVal, ⟨"Content-ID".toList, '<' :: (o.id ++ ['>'])⟩] o.data

/-- An attachment part: its media type with `Content-Disposition:
attachment`. -/
def attPart (a : AttachmentV) : Part :=
  .leaf [ctField a.mtypeVal, ⟨"Content-Disposition".toList, "attachment".toList⟩]
    a.data

/-- A multipart node built by the builder: `multipart/<sub>` carrying a
freshly chosen boundary that scans safely against the children's
generated output. -/
def mkMultipart (sub : Line) (children : List Part) : Part :=
  .multi [ctField ("multipart/".toList ++ sub ++ "; boundary=".toList
    ++ freshBoundary (genParts children).flatten)] [] children []

/-- The separator between generated addresses. -/
def addrSep : Line := [',', ' ']

/-- Comma-join a list of address lines. -/
def joinAddr : List Line → Line
  | [] => []
  | [a] => a
  | a :: rest => a ++ addrSep ++ joinAddr rest

/-- The header fields the builder sets on the outermost part. -/
def rootHeaders (mb : messageBuilder) : List Field :=
  [⟨"Date".toList, mb.dateValue⟩,
   ⟨"From".toList, mb.expeditor⟩,
   ⟨"To".toList, joinAddr mb.recipients⟩,
   ⟨"Cc".toList, joinAddr mb.ccRecipients⟩,
   ⟨"Bcc".toList, joinAddr mb.bccRecipients⟩,
   ⟨"Subject".toList, mb.subjectText⟩,
   ⟨"MIME-Version".toList, "1.0".toList⟩,
   ⟨"Message-ID".toList, mb.messageIdValue⟩]

/-- Append the builder's outermost header fields after the content-related
fields of the root part. -/
def addRootHeaders (mb : messageBuilder) : Part → Part
  | .leaf h c => .leaf (h ++ rootHeaders mb) c
  | .multi h pre cs epi => .multi (h ++ rootHeaders mb) pre cs epi

/-- Modelled from the spec (decision table rows with no attachment): the
content tree — a single text leaf; `multipart/alternative { plain, html }`;
`multipart/related { html, objects… }`; or
`multipart/alternative { plain, multipart/related { html, objects… } }`. -/
def contentTree (mb : messageBuilder) : Part :=
  match mb.textPart with
  | .plain cs txt => textLeaf cs "plain".toList txt
  | .html cs ht alt objs =>
    let rel := if objs.isEmpty then textLeaf cs "html".toList ht
      else mkMultipart "related".toList
        (textLeaf cs "html".toList ht :: objs.map objPart)
    match alt with
    | some pt => mkMultipart "alternative".toList [textLeaf cs "plain".toList pt, rel]
    | none => rel

/-- Modelled from the spec: `construct()` — the content tree, wrapped in
`multipart/mixed` with the attachments when any exist, with the outermost
header fields added. -/
def construct (mb : messageBuilder) : Part :=
  addRootHeaders mb
    (if mb.attachments.isEmpty then contentTree mb
     else mkMultipart "mixed".toList (contentTree mb :: mb.attachments.map attPart))

theorem splitOnChar_append {sep : Char} {A B : Line} (hA : ∀ c ∈ A, c ≠ sep) :
    splitOnChar sep (A ++ sep :: B) = A :: splitOnCharF sep (A.length + B.length) B := by
  unfold splitOnChar
  have hlen : (A ++ sep :: B).length = (A.length + B.length) + 1 := by
    simp
    omega
  rw [hlen, splitOnCharF_append _ hA]

theorem parseMediaType_shape {A B : Line} (hA : ∀ c ∈ A, c ≠ ';') :
    parseMediaType (A ++ ';' :: B)
      = ⟨lowerLine ((trim A).takeWhile (fun c => c != '/')),
         lowerLine (trim (((trim A).dropWhile (fun c => c != '/')).drop 1)),
         (splitOnCharF ';' (A.length + B.length) B).map parseParam⟩ := by
  unfold parseMediaType
  rw [splitOnChar_append hA]

theorem unquote_of_no_quote {l : Line} (h : ∀ c ∈ l, c ≠ '"') : unquote l = l := by
  cases l with
  | nil => rfl
  | cons c t =>
    have hc : c ≠ '"' := h c (List.mem_cons_self _ _)
    unfold unquote
    split
    next rest heq =>
      injection heq with h1 h2
      exact absurd h1 hc
    next => rfl

theorem parseParam_boundary {b : Line}
    (hb : ∀ c ∈ b, isWS c = false ∧ c ≠ '=' ∧ c ≠ '"') :
    parseParam (" boundary=".toList ++ b) = ("boundary".toList, b) := by
  have hshape : (" boundary=".toList ++ b) = " boundary".toList ++ '=' :: b := rfl
  have hA : ∀ c ∈ (" boundary".toList : Line), (c != '=') = true := by decide
  unfold parseParam
  rw [hshape, takeWhile_append_stop hA (by decide), dropWhile_append_stop hA (by decide)]
  simp only [List.drop_succ_cons, List.drop_zero]
  rw [trim_no_ws (fun c hc => (hb c hc).1)]
  rw [unquote_of_no_quote (fun c hc => (hb c hc).2.2)]
  rw [show lowerLine (trim " boundary".toList) = "boundary".toList from by decide]

theorem find?_cons_pos {α : Type} (p : α → Bool) (a : α) (l : List α)
    (h : p a = true) : (a :: l).find? p = some a := by
  simp [List.find?_cons, h]

theorem effMT_ct_first (v : Line) (rest : List Field) :
    effectiveMediaType (ctField v :: rest) = parseMediaType v := by
  have hp : (fun fd : Field => lowerLine fd.name == lowerLine "Content-Type".toList)
      (ctField v) = true := by
    show (lowerLine "Content-Type".toList == lowerLine "Content-Type".toList) = true
    decide
  unfold effectiveMediaType findField
  rw [find?_cons_pos (fun fd : Field => lowerLine fd.name == lowerLine "Content-Type".toList)
    (ctField v) rest hp]
  rfl

theorem effTop_ct_first (v : Line) (rest : List Field) :
    effTop (ctField v :: rest) = (parseMediaType v).top := by
  unfold effTop
  rw [effMT_ct_first]

theorem boundaryParam_ct_first {v : Line} (rest : List Field) {top sub b : Line}
    (h : parseMediaType v = ⟨top, sub, [("boundary".toList, b)]⟩) :
    boundaryParam (ctField v :: rest) = some b := by
  have hp : (fun p : Line × Line => p.1 == ("boundary".toList : Line))
      ("boundary".toList, b) = true := by
    show (("boundary".toList : Line) == ("boundary".toList : Line)) = true
    decide
  unfold boundaryParam
  rw [effMT_ct_first, h]
  rw [find?_cons_pos (fun p : Line × Line => p.1 == ("boundary".toList : Line))
    ("boundary".toList, b) [] hp]
  rfl

/-- A media-type token or parameter value free of whitespace, separators
and quotes. -/
def okToken (l : Line) : Prop :=
  ∀ c ∈ l, isWS c = false ∧ c ≠ ';' ∧ c ≠ '=' ∧ c ≠ '"' ∧ c ≠ '/' ∧ c ≠ '\r' ∧ c ≠ '\n'

instance (l : Line) : Decidable (okToken l) := by
  unfold okToken; infer_instance

theorem freshBoundary_token (ls : List Line) : okToken (freshBoundary ls) := by
  intro c hc
  unfold freshBoundary at hc
  have : c = 'z' := List.eq_of_mem_replicate hc
  subst this
  refine ⟨by decide, by decide, by decide, by decide, by decide, by decide, by decide⟩

theorem parseMediaType_multipart {sub b : Line}
    (hsub : ∀ c ∈ sub, isWS c = false ∧ c ≠ ';' ∧ c ≠ '/')
    (hb : okToken b) :
    parseMediaType ("multipart/".toList ++ sub ++ "; boundary=".toList ++ b)
      = ⟨"multipart".toList, lowerLine sub, [("boundary".toList, b)]⟩ := by
  have hshape : "multipart/".toList ++ sub ++ "; boundary=".toList ++ b
      = ("multipart/".toList ++ sub) ++ ';' :: (" boundary=".toList ++ b) := by
    simp [List.append_assoc]
  have hc1 : ∀ c ∈ ("multipart/".toList : Line), c ≠ ';' := by decide
  have hc2 : ∀ c ∈ ("multipart/".toList : Line), isWS c = false := by decide
  have hc3 : ∀ c ∈ (" boundary=".toList : Line), c ≠ ';' := by decide
  have hA : ∀ c ∈ "multipart/".toList ++ sub, c ≠ ';' := by
    intro c hc
    rcases List.mem_append.1 hc with h1 | h1
    · exact hc1 c h1
    · exact (hsub c h1).2.1
  have hAno : ∀ c ∈ "multipart/".toList ++ sub, isWS c = false := by
    intro c hc
    rcases List.mem_append.1 hc with h1 | h1
    · exact hc2 c h1
    · exact (hsub c h1).1
  have hBno : ∀ c ∈ " boundary=".toList ++ b, c ≠ ';' := by
    intro c hc
    rcases List.mem_append.1 hc with h1 | h1
    · exact hc3 c h1
    · exact (hb c h1).2.1
  rw [hshape, parseMediaType_shape hA]
  rw [splitOnCharF_no_sep _ hBno]
  rw [trim_no_ws hAno]
  have hsub1 : ∀ c ∈ ("multipart".toList : Line), (c != '/') = true := by decide
  have hshape2 : "multipart/".toList ++ sub = "multipart".toList ++ '/' :: sub := rfl
  rw [hshape2, takeWhile_append_stop hsub1 (by decide),
    dropWhile_append_stop hsub1 (by decide)]
  simp only [List.drop_succ_cons, List.drop_zero, List.map_cons, List.map_nil]
  rw [trim_no_ws (fun c hc => (hsub c hc).1)]
  rw [parseParam_boundary (fun c hc => ⟨(hb c hc).1, (hb c hc).2.2.1, (hb c hc).2.2.2.1⟩)]
  rw [show lowerLine "multipart".toList = "multipart".toList from by decide]

theorem parseMediaType_top_shape {A B : Line} (hA : ∀ c ∈ A, c ≠ ';') :
    (parseMediaType (A ++ ';' :: B)).top
      = lowerLine ((trim A).takeWhile (fun c => c != '/')) := by
  rw [parseMediaType_shape hA]

theorem unit_length_le {s u : Line} (hu : u ∈ unitsF s.length s) :
    u.length ≤ s.length := by
  have h2 := unitsF_flatten s.length (le_refl _)
  have h3 := length_le_flatten hu
  rw [h2] at h3
  exact h3

theorem foldLine_le {s : Line} {K : Nat} (hK : 78 ≤ K) (hs : s.length ≤ K) :
    ∀ p ∈ foldLine s, p.length ≤ K := by
  intro p hp
  have hm : ∀ u ∈ unitsF s.length s, u.length ≤ K :=
    fun u hu => le_trans (unit_length_le hu) hs
  have h2 := foldLine_soft hm p hp
  rwa [Nat.max_eq_right hK] at h2

theorem genHeader_le {h : List Field} {K : Nat} (hK : 78 ≤ K)
    (hf : ∀ fd ∈ h, (fieldLine fd).length ≤ K) :
    ∀ l ∈ genHeader h, l.length ≤ K := by
  intro l hl
  obtain ⟨b, hb, hlb⟩ := List.mem_flatten.1 hl
  obtain ⟨fd, hfd, hbe⟩ := List.mem_map.1 hb
  rw [← hbe] at hlb
  exact foldLine_le hK (hf fd hfd) l hlb

theorem linesMax_le {ls : List Line} {K : Nat} (h : ∀ l ∈ ls, l.length ≤ K) :
    linesMax ls ≤ K := by
  induction ls with
  | nil => simp [linesMax]
  | cons a t ih =>
    show max a.length (linesMax t) ≤ K
    exact Nat.max_le.2 ⟨h a (List.mem_cons_self _ _),
      ih fun l hl => h l (List.mem_cons_of_mem _ hl)⟩

theorem genPart_leaf_le {h : List Field} {content : List Line} {K : Nat}
    (hK : 78 ≤ K) (hf : ∀ fd ∈ h, (fieldLine fd).length ≤ K)
    (hc : ∀ l ∈ content, l.length ≤ K) :
    ∀ l ∈ genPart (.leaf h content), l.length ≤ K := by
  intro l hl
  rw [genPart] at hl
  rcases List.mem_append.1 hl with h1 | h1
  · exact genHeader_le hK hf l h1
  · rcases List.mem_cons.1 h1 with h2 | h2
    · rw [h2]; simp
    · exact hc l h2

theorem genPart_multi_le {h : List Field} {pre cs epi} {K : Nat} (hK : 78 ≤ K)
    (hf : ∀ fd ∈ h, (fieldLine fd).length ≤ K)
    (hpre : ∀ l ∈ pre, l.length ≤ K) (hepi : ∀ l ∈ epi, l.length ≤ K)
    (hch : ∀ l ∈ (genParts cs).flatten, l.length ≤ K)
    (hb : (pickBoundary (boundaryParam h) (genParts cs).flatten).length + 4 ≤ K) :
    ∀ l ∈ genPart (.multi h pre cs epi), l.length ≤ K := by
  intro l hl
  rw [genPart] at hl
  rcases List.mem_append.1 hl with h1 | h1
  · exact genHeader_le hK hf l h1
  · rcases List.mem_cons.1 h1 with h2 | h2
    · rw [h2]; simp
    · rcases List.mem_append.1 h2 with h3 | h3
      · rcases List.mem_append.1 h3 with h4 | h4
        · exact hpre l h4
        · obtain ⟨blk2, hblk2, hlb⟩ := List.mem_flatten.1 h4
          obtain ⟨blk, hblk, hbe⟩ := List.mem_map.1 hblk2
          rw [← hbe] at hlb
          rcases List.mem_cons.1 hlb with h5 | h5
          · rw [h5]
            simp only [delim, List.length_cons]
            omega
          · exact hch l (List.mem_flatten.2 ⟨blk, hblk, h5⟩)
      · rcases List.mem_cons.1 h3 with h4 | h4
        · rw [h4]
          simp [closeDelim]
          omega
        · exact hepi l h4

/-! ### Well-formedness of builder inputs -/

/-- A header value the builder may receive: CR/LF-free, not beginning with
whitespace, of modest length. -/
def okValue (l : Line) : Prop := noCRLF l ∧ headWS l = false ∧ l.length ≤ 200

/-- Body content lines the builder may receive. -/
def okContent (ls : List Line) : Prop := ∀ l ∈ ls, noCRLF l ∧ l.length ≤ 200

/-- A media type value for an object or attachment: a decent header value
whose top-level type is not `multipart`. -/
def okMType (l : Line) : Prop :=
  okValue l ∧ (parseMediaType l).top ≠ "multipart".toList

/-- A content identifier. -/
def okId (l : Line) : Prop := noCRLF l ∧ l.length ≤ 200

/-- A charset token of modest length. -/
def okCharset (l : Line) : Prop := okToken l ∧ l.length ≤ 100

instance (l : Line) : Decidable (okValue l) := by unfold okValue; infer_instance

instance (ls : List Line) : Decidable (okContent ls) := by
  unfold okContent; infer_instance

instance (l : Line) : Decidable (okMType l) := by unfold okMType; infer_instance

instance (l : Line) : Decidable (okId l) := by unfold okId; infer_instance

instance (l : Line) : Decidable (okCharset l) := by unfold okCharset; infer_instance

/-- Well-formedness of an optional plain alternative. -/
def okAlt : Option (List Line) → Prop
  | some pt => okContent pt
  | none => True

instance : (a : Option (List Line)) → Decidable (okAlt a)
  | some pt => by unfold okAlt; infer_instance
  | none => by unfold okAlt; infer_instance

/-- Well-formedness of the builder's text part inputs. -/
def okTextPart : TextPartKind → Prop
  | .plain cs txt => okCharset cs ∧ okContent txt
  | .html cs ht alt objs => okCharset cs ∧ okContent ht ∧ okAlt alt ∧
      ∀ o ∈ objs, okMType o.mtypeVal ∧ okId o.id ∧ okContent o.data

instance : (t : TextPartKind) → Decidable (okTextPart t)
  | .plain cs txt => by unfold okTextPart; infer_instance
  | .html cs ht alt objs => by unfold okTextPart; infer_instance

/-- Well-formedness of all builder inputs: header values are sane and
bounded, content is CR/LF-free with bounded lines, and object and
attachment media types are not multipart. -/
def WfInputs (mb : messageBuilder) : Prop :=
  okValue mb.dateValue ∧ okValue mb.expeditor ∧ okValue (joinAddr mb.recipients) ∧
  okValue (joinAddr mb.ccRecipients) ∧ okValue (joinAddr mb.bccRecipients) ∧
  okValue mb.subjectText ∧ okValue mb.messageIdValue ∧
  okTextPart mb.textPart ∧
  ∀ a ∈ mb.attachments, okMType a.mtypeVal ∧ okContent a.data

instance (mb : messageBuilder) : Decidable (WfInputs mb) := by
  unfold WfInputs; infer_instance

/-- A short, colon-free, well-behaved header field name. -/
def okName (nm : Line) : Prop :=
  nm ≠ [] ∧ (∀ c ∈ nm, c ≠ ':') ∧ headWS nm = false ∧ noCRLF nm ∧ nm.length ≤ 20

instance (nm : Line) : Decidable (okName nm) := by unfold okName; infer_instance

theorem wfField_of_okValue {nm v : Line} (hn : okName nm) (hv : okValue v) :
    wfField ⟨nm, v⟩ := by
  obtain ⟨h1, h2, h3, h4, h5⟩ := hn
  obtain ⟨hv1, hv2, hv3⟩ := hv
  refine ⟨h1, h2, h3, hv2, h4, hv1, ?_⟩
  show (nm ++ ':' :: ' ' :: v).length ≤ 998
  simp only [List.length_append, List.length_cons]
  omega

theorem rootHeaders_wf {mb : messageBuilder} (hw : WfInputs mb) :
    ∀ fd ∈ rootHeaders mb, wfField fd := by
  obtain ⟨h1, h2, h3, h4, h5, h6, h7, _, _⟩ := hw
  intro fd hfd
  simp only [rootHeaders, List.mem_cons, List.mem_singleton] at hfd
  rcases hfd with h | h | h | h | h | h | h | h | h
  · rw [h]; exact wfField_of_okValue (by decide) h1
  · rw [h]; exact wfField_of_okValue (by decide) h2
  · rw [h]; exact wfField_of_okValue (by decide) h3
  · rw [h]; exact wfField_of_okValue (by decide) h4
  · rw [h]; exact wfField_of_okValue (by decide) h5
  · rw [h]; exact wfField_of_okValue (by decide) h6
  · rw [h]; exact wfField_of_okValue (by decide) (by decide)
  · rw [h]; exact wfField_of_okValue (by decide) h7
  · cases h

theorem rootHeaders_fieldLine_le {mb : messageBuilder} (hw : WfInputs mb) :
    ∀ fd ∈ rootHeaders mb, (fieldLine fd).length ≤ 216 := by
  obtain ⟨h1, h2, h3, h4, h5, h6, h7, _, _⟩ := hw
  have hgen : ∀ (nm v : Line), nm.length ≤ 14 → v.length ≤ 200 →
      (fieldLine ⟨nm, v⟩).length ≤ 216 := by
    intro nm v hn hv
    show (nm ++ ':' :: ' ' :: v).length ≤ 216
    simp only [List.length_append, List.length_cons]
    omega
  intro fd hfd
  simp only [rootHeaders, List.mem_cons, List.mem_singleton] at hfd
  rcases hfd with h | h | h | h | h | h | h | h | h
  · rw [h]; exact hgen _ _ (by decide) h1.2.2
  · rw [h]; exact hgen _ _ (by decide) h2.2.2
  · rw [h]; exact hgen _ _ (by decide) h3.2.2
  · rw [h]; exact hgen _ _ (by decide) h4.2.2
  · rw [h]; exact hgen _ _ (by decide) h5.2.2
  · rw [h]; exact hgen _ _ (by decide) h6.2.2
  · rw [h]; exact hgen _ _ (by decide) (by decide)
  · rw [h]; exact hgen _ _ (by decide) h7.2.2
  · cases h

/-- Generic well-formedness of a leaf whose header opens with its
`Content-Type` field. -/
theorem leaf_ct_wf {v : Line} {rest : List Field} {content : List Line}
    (hv : wfField (ctField v)) (hrest : ∀ fd ∈ rest, wfField fd)
    (hcont : ∀ l ∈ content, noCRLF l)
    (htop : (parseMediaType v).top ≠ "multipart".toList) :
    wfPart (.leaf (ctField v :: rest) content) := by
  rw [wfPart]
  refine ⟨?_, hcont, ?_⟩
  · intro fd hfd
    rcases List.mem_cons.1 hfd with h | h
    · rw [h]; exact hv
    · exact hrest fd h
  · left
    rw [effTop_ct_first]
    exact htop

theorem multi_ct_wf {sub : Line} {rest : List Field} {cs : List Part}
    (hsub : ∀ c ∈ sub, isWS c = false ∧ c ≠ ';' ∧ c ≠ '/' ∧ c ≠ '\r' ∧ c ≠ '\n')
    (hsublen : sub.length ≤ 12)
    (hrest : ∀ fd ∈ rest, wfField fd)
    (hmax : linesMax (genParts cs).flatten ≤ 940)
    (hcs : wfParts cs) :
    wfPart (.multi (ctField ("multipart/".toList ++ sub ++ "; boundary=".toList
      ++ freshBoundary (genParts cs).flatten) :: rest) [] cs []) := by
  have hparse : parseMediaType ("multipart/".toList ++ sub ++ "; boundary=".toList
      ++ freshBoundary (genParts cs).flatten)
      = ⟨"multipart".toList, lowerLine sub,
         [("boundary".toList, freshBoundary (genParts cs).flatten)]⟩ :=
    parseMediaType_multipart
      (fun c hc => ⟨(hsub c hc).1, (hsub c hc).2.1, (hsub c hc).2.2.1⟩)
      (freshBoundary_token _)
  have hblen : (freshBoundary (genParts cs).flatten).length
      = linesMax (genParts cs).flatten + 1 := freshBoundary_length _
  have hbz : ∀ c ∈ freshBoundary (genParts cs).flatten, c = 'z' :=
    fun c hc => List.eq_of_mem_replicate hc
  have hbne : freshBoundary (genParts cs).flatten ≠ [] := by
    intro hc
    have := congrArg List.length hc
    rw [hblen] at this
    simp at this
  rw [wfPart]
  refine ⟨?_, ?_, ?_, ?_, ?_, hcs⟩
  · intro fd hfd
    rcases List.mem_cons.1 hfd with h | h
    · rw [h]
      refine ⟨by show ("Content-Type".toList : Line) ≠ []; decide,
        by show ∀ c ∈ ("Content-Type".toList : Line), c ≠ ':'; decide,
        by show headWS ("Content-Type".toList : Line) = false; decide,
        ?_,
        by show noCRLF ("Content-Type".toList : Line); decide, ?_, ?_⟩
      · rfl
      · intro c hc
        rcases List.mem_append.1 hc with h1 | h1
        · rcases List.mem_append.1 h1 with h2 | h2
          · rcases List.mem_append.1 h2 with h3 | h3
            · revert h3
              have : ∀ c ∈ ("multipart/".toList : Line), c ≠ '\r' ∧ c ≠ '\n' := by decide
              exact this c
            · exact ⟨(hsub c h3).2.2.2.1, (hsub c h3).2.2.2.2⟩
          · revert h2
            have : ∀ c ∈ ("; boundary=".toList : Line), c ≠ '\r' ∧ c ≠ '\n' := by decide
            exact this c
        · rw [hbz c h1]
          exact ⟨by decide, by decide⟩
      · show (("Content-Type".toList : Line) ++ ':' :: ' ' ::
          ("multipart/".toList ++ sub ++ "; boundary=".toList
            ++ freshBoundary (genParts cs).flatten)).length ≤ 998
        simp only [List.length_append, List.length_cons]
        have h12 : ("Content-Type".toList : Line).length = 12 := by decide
        have h10 : ("multipart/".toList : Line).length = 10 := by decide
        have h11 : ("; boundary=".toList : Line).length = 11 := by decide
        omega
    · exact hrest fd h
  · rw [effTop_ct_first, hparse]
  · unfold boundaryOK
    rw [boundaryParam_ct_first rest hparse]
    refine ⟨hbne, ?_, freshBoundary_safe _, ?_⟩
    · intro c hc
      rw [hbz c hc]
      exact ⟨by decide, by decide⟩
    · intro l hl
      cases hl
  · intro l hl
    cases hl
  · intro l hl
    cases hl

theorem multi_ct_lines_le {sub : Line} {rest : List Field} {cs : List Part} {Kc K : Nat}
    (hK : 78 ≤ K)
    (hsub : ∀ c ∈ sub, isWS c = false ∧ c ≠ ';' ∧ c ≠ '/' ∧ c ≠ '\r' ∧ c ≠ '\n')
    (hsublen : sub.length ≤ 12)
    (hrest : ∀ fd ∈ rest, (fieldLine fd).length ≤ K)
    (hch : ∀ l ∈ (genParts cs).flatten, l.length ≤ Kc)
    (hbound : Kc + 48 ≤ K) :
    ∀ l ∈ genPart (.multi (ctField ("multipart/".toList ++ sub ++ "; boundary=".toList
      ++ freshBoundary (genParts cs).flatten) :: rest) [] cs []), l.length ≤ K := by
  have hparse : parseMediaType ("multipart/".toList ++ sub ++ "; boundary=".toList
      ++ freshBoundary (genParts cs).flatten)
      = ⟨"multipart".toList, lowerLine sub,
         [("boundary".toList, freshBoundary (genParts cs).flatten)]⟩ :=
    parseMediaType_multipart
      (fun c hc => ⟨(hsub c hc).1, (hsub c hc).2.1, (hsub c hc).2.2.1⟩)
      (freshBoundary_token _)
  have hblen : (freshBoundary (genParts cs).flatten).length
      = linesMax (genParts cs).flatten + 1 := freshBoundary_length _
  have hmaxc : linesMax (genParts cs).flatten ≤ Kc := linesMax_le hch
  have hbne : freshBoundary (genParts cs).flatten ≠ [] := by
    intro hc
    have := congrArg List.length hc
    rw [hblen] at this
    simp at this
  apply genPart_multi_le hK
  · intro fd hfd
    rcases List.mem_cons.1 hfd with h | h
    · rw [h]
      show (("Content-Type".toList : Line) ++ ':' :: ' ' ::
        ("multipart/".toList ++ sub ++ "; boundary=".toList
          ++ freshBoundary (genParts cs).flatten)).length ≤ K
      simp only [List.length_append, List.length_cons]
      have h12 : ("Content-Type".toList : Line).length = 12 := by decide
      have h10 : ("multipart/".toList : Line).length = 10 := by decide
      have h11 : ("; boundary=".toList : Line).length = 11 := by decide
      omega
    · exact hrest fd h
  · intro l hl; cases hl
  · intro l hl; cases hl
  · intro l hl
    exact le_trans (hch l hl) (by omega)
  · rw [boundaryParam_ct_first rest hparse,
      pickBoundary_declared hbne (freshBoundary_safe _), hblen]
    omega

/-- Append extra header fields to a part's header. -/
def hdrApp : Part → List Field → Part
  | .leaf h c, r => .leaf (h ++ r) c
  | .multi h pre cs epi, r => .multi (h ++ r) pre cs epi

theorem addRootHeaders_eq (mb : messageBuilder) (p : Part) :
    addRootHeaders mb p = hdrApp p (rootHeaders mb) := by
  cases p <;> rfl

theorem hdrApp_nil (p : Part) : hdrApp p [] = p := by
  cases p <;> simp [hdrApp]

theorem wfParts_of_forall {cs : List Part} (h : ∀ c ∈ cs, wfPart c) :
    wfParts cs := by
  induction cs with
  | nil => rw [wfParts]; trivial
  | cons c t ih =>
    rw [wfParts_cons]
    exact ⟨h c (List.mem_cons_self _ _), ih fun x hx => h x (List.mem_cons_of_mem _ hx)⟩

theorem textTop_plain (cs : Line) :
    (parseMediaType ("text/plain; charset=".toList ++ cs)).top = "text".toList := by
  have hsh : "text/plain; charset=".toList ++ cs
      = "text/plain".toList ++ ';' :: (" charset=".toList ++ cs) := rfl
  rw [hsh, parseMediaType_top_shape (by decide)]
  decide

theorem textTop_html (cs : Line) :
    (parseMediaType ("text/html; charset=".toList ++ cs)).top = "text".toList := by
  have hsh : "text/html; charset=".toList ++ cs
      = "text/html".toList ++ ';' :: (" charset=".toList ++ cs) := rfl
  rw [hsh, parseMediaType_top_shape (by decide)]
  decide

theorem textLeaf_ct_wfField {C cs : Line} (hC : noCRLF C) (hClen : C.length ≤ 30)
    (hChead : headWS (C ++ cs) = false)
    (hcs : okCharset cs) : wfField (ctField (C ++ cs)) := by
  refine ⟨by show ("Content-Type".toList : Line) ≠ []; decide,
    by show ∀ c ∈ ("Content-Type".toList : Line), c ≠ ':'; decide,
    by show headWS ("Content-Type".toList : Line) = false; decide,
    hChead,
    by show noCRLF ("Content-Type".toList : Line); decide, ?_, ?_⟩
  · intro c hc
    rcases List.mem_append.1 hc with h1 | h1
    · exact hC c h1
    · exact ⟨(hcs.1 c h1).2.2.2.2.2.1, (hcs.1 c h1).2.2.2.2.2.2⟩
  · show (("Content-Type".toList : Line) ++ ':' :: ' ' :: (C ++ cs)).length ≤ 998
    simp only [List.length_append, List.length_cons]
    have h12 : ("Content-Type".toList : Line).length = 12 := by decide
    have := hcs.2
    omega

theorem textLeaf_plain_wf_rest {cs : Line} {txt : List Line} {rest : List Field}
    (hrest : ∀ fd ∈ rest, wfField fd)
    (hcs : okCharset cs) (htxt : okContent txt) :
    wfPart (hdrApp (textLeaf cs "plain".toList txt) rest) := by
  show wfPart (.leaf (ctField ("text/plain; charset=".toList ++ cs) :: rest) txt)
  apply leaf_ct_wf
  · exact textLeaf_ct_wfField (by decide) (by decide) rfl hcs
  · exact hrest
  · exact fun l hl => (htxt l hl).1
  · rw [textTop_plain]
    decide

theorem textLeaf_plain_wf {cs : Line} {txt : List Line}
    (hcs : okCharset cs) (htxt : okContent txt) :
    wfPart (textLeaf cs "plain".toList txt) := by
  have h2 := @textLeaf_plain_wf_rest _ _ []
    (fun fd hfd => absurd hfd (List.not_mem_nil fd)) hcs htxt
  rwa [hdrApp_nil] at h2

theorem textLeaf_html_wf_rest {cs : Line} {txt : List Line} {rest : List Field}
    (hrest : ∀ fd ∈ rest, wfField fd)
    (hcs : okCharset cs) (htxt : okContent txt) :
    wfPart (hdrApp (textLeaf cs "html".toList txt) rest) := by
  show wfPart (.leaf (ctField ("text/html; charset=".toList ++ cs) :: rest) txt)
  apply leaf_ct_wf
  · exact textLeaf_ct_wfField (by decide) (by decide) rfl hcs
  · exact hrest
  · exact fun l hl => (htxt l hl).1
  · rw [textTop_html]
    decide

theorem textLeaf_html_wf {cs : Line} {txt : List Line}
    (hcs : okCharset cs) (htxt : okContent txt) :
    wfPart (textLeaf cs "html".toList txt) := by
  have h2 := @textLeaf_html_wf_rest _ _ []
    (fun fd hfd => absurd hfd (List.not_mem_nil fd)) hcs htxt
  rwa [hdrApp_nil] at h2

theorem textLeaf_lines_le {cs sub : Line} {txt : List Line} {C : Line}
    (hv : textLeaf cs sub txt = .leaf [ctField (C ++ cs)] txt)
    (hClen : C.length ≤ 30) (hcslen : cs.length ≤ 100) (htxt : okContent txt) :
    ∀ l ∈ genPart (textLeaf cs sub txt), l.length ≤ 214 := by
  rw [hv]
  apply genPart_leaf_le (by omega)
  · intro fd hfd
    rcases List.mem_cons.1 hfd with h | h
    · rw [h]
      show (("Content-Type".toList : Line) ++ ':' :: ' ' :: (C ++ cs)).length ≤ 214
      simp only [List.length_append, List.length_cons]
      have h12 : ("Content-Type".toList : Line).length = 12 := by decide
      omega
    · cases h
  · exact fun l hl => le_trans (htxt l hl).2 (by omega)

theorem objPart_wf {o : EmbObj} (h1 : okMType o.mtypeVal) (h2 : okId o.id)
    (h3 : okContent o.data) : wfPart (objPart o) := by
  show wfPart (.leaf (ctField o.mtypeVal
    :: [⟨"Content-ID".toList, '<' :: (o.id ++ ['>'])⟩]) o.data)
  apply leaf_ct_wf
  · exact wfField_of_okValue (by decide) h1.1
  · intro fd hfd
    rcases List.mem_cons.1 hfd with h | h
    · rw [h]
      refine ⟨by show ("Content-ID".toList : Line) ≠ []; decide,
        by show ∀ c ∈ ("Content-ID".toList : Line), c ≠ ':'; decide,
        by show headWS ("Content-ID".toList : Line) = false; decide,
        rfl,
        by show noCRLF ("Content-ID".toList : Line); decide, ?_, ?_⟩
      · intro c hc
        rcases List.mem_cons.1 hc with hh | hh
        · subst hh; exact ⟨by decide, by decide⟩
        · rcases List.mem_append.1 hh with hh2 | hh2
          · exact h2.1 c hh2
          · have hcg : c = '>' := List.mem_singleton.1 hh2
            subst hcg
            exact ⟨by decide, by decide⟩
      · show (("Content-ID".toList : Line) ++ ':' :: ' '
          :: ('<' :: (o.id ++ ['>']))).length ≤ 998
        simp only [List.length_append, List.length_cons, List.length_nil]
        have h10 : ("Content-ID".toList : Line).length = 10 := by decide
        have := h2.2
        omega
    · cases h
  · exact fun l hl => (h3 l hl).1
  · exact h1.2

theorem objPart_lines_le {o : EmbObj} (h1 : okMType o.mtypeVal) (h2 : okId o.id)
    (h3 : okContent o.data) :
    ∀ l ∈ genPart (objPart o), l.length ≤ 214 := by
  show ∀ l ∈ genPart (.leaf (ctField o.mtypeVal
    :: [⟨"Content-ID".toList, '<' :: (o.id ++ ['>'])⟩]) o.data), l.length ≤ 214
  apply genPart_leaf_le (by omega)
  · intro fd hfd
    rcases List.mem_cons.1 hfd with h | h
    · rw [h]
      show (("Content-Type".toList : Line) ++ ':' :: ' ' :: o.mtypeVal).length ≤ 214
      simp only [List.length_append, List.length_cons]
      have h12 : ("Content-Type".toList : Line).length = 12 := by decide
      have := h1.1.2.2
      omega
    · rw [List.mem_singleton.1 h]
      show (("Content-ID".toList : Line) ++ ':' :: ' '
        :: ('<' :: (o.id ++ ['>']))).length ≤ 214
      simp only [List.length_append, List.length_cons, List.length_nil]
      have h10 : ("Content-ID".toList : Line).length = 10 := by decide
      have := h2.2
      omega
  · exact fun l hl => le_trans (h3 l hl).2 (by omega)

theorem attPart_wf {a : AttachmentV} (h1 : okMType a.mtypeVal)
    (h3 : okContent a.data) : wfPart (attPart a) := by
  show wfPart (.leaf (ctField a.mtypeVal
    :: [⟨"Content-Disposition".toList, "attachment".toList⟩]) a.data)
  apply leaf_ct_wf
  · exact wfField_of_okValue (by decide) h1.1
  · intro fd hfd
    rcases List.mem_cons.1 hfd with h | h
    · rw [h]
      exact wfField_of_okValue (by decide) (by decide)
    · cases h
  · exact fun l hl => (h3 l hl).1
  · exact h1.2

theorem attPart_lines_le {a : AttachmentV} (h1 : okMType a.mtypeVal)
    (h3 : okContent a.data) :
    ∀ l ∈ genPart (attPart a), l.length ≤ 214 := by
  show ∀ l ∈ genPart (.leaf (ctField a.mtypeVal
    :: [⟨"Content-Disposition".toList, "attachment".toList⟩]) a.data), l.length ≤ 214
  apply genPart_leaf_le (by omega)
  · intro fd hfd
    rcases List.mem_cons.1 hfd with h | h
    · rw [h]
      show (("Content-Type".toList : Line) ++ ':' :: ' ' :: a.mtypeVal).length ≤ 214
      simp only [List.length_append, List.length_cons]
      have h12 : ("Content-Type".toList : Line).length = 12 := by decide
      have := h1.1.2.2
      omega
    · rw [List.mem_singleton.1 h]
      show (fieldLine ⟨"Content-Disposition".toList, "attachment".toList⟩).length ≤ 214
      decide
  · exact fun l hl => le_trans (h3 l hl).2 (by omega)

theorem rel_children_le {cs : Line} {ht : List Line} {objs : List EmbObj}
    (hcs : okCharset cs) (hht : okContent ht)
    (hobjs : ∀ o ∈ objs, okMType o.mtypeVal ∧ okId o.id ∧ okContent o.data) :
    ∀ l ∈ (genParts (textLeaf cs "html".toList ht :: objs.map objPart)).flatten,
      l.length ≤ 214 := by
  intro l hl
  rw [genParts] at hl
  simp only [List.flatten_cons] at hl
  rcases List.mem_append.1 hl with h1 | h1
  · exact textLeaf_lines_le rfl (by decide) hcs.2 hht l h1
  · rw [genParts_eq_map] at h1
    obtain ⟨blk, hblk, hlb⟩ := List.mem_flatten.1 h1
    obtain ⟨p, hp, hpe⟩ := List.mem_map.1 hblk
    obtain ⟨o, ho, hoe⟩ := List.mem_map.1 hp
    rw [← hpe, ← hoe] at hlb
    exact objPart_lines_le (hobjs o ho).1 (hobjs o ho).2.1 (hobjs o ho).2.2 l hlb

theorem rel_wf_rest {cs : Line} {ht : List Line} {objs : List EmbObj} {rest : List Field}
    (hrest : ∀ fd ∈ rest, wfField fd)
    (hcs : okCharset cs) (hht : okContent ht)
    (hobjs : ∀ o ∈ objs, okMType o.mtypeVal ∧ okId o.id ∧ okContent o.data) :
    wfPart (hdrApp (mkMultipart "related".toList
      (textLeaf cs "html".toList ht :: objs.map objPart)) rest) := by
  rw [mkMultipart]
  show wfPart (.multi (ctField _ :: rest) [] _ [])
  apply multi_ct_wf (by decide) (by decide) hrest
  · exact le_trans (linesMax_le (rel_children_le hcs hht hobjs)) (by omega)
  · apply wfParts_of_forall
    intro c hc
    rcases List.mem_cons.1 hc with h | h
    · rw [h]
      exact textLeaf_html_wf hcs hht
    · obtain ⟨o, ho, hoe⟩ := List.mem_map.1 h
      rw [← hoe]
      exact objPart_wf (hobjs o ho).1 (hobjs o ho).2.1 (hobjs o ho).2.2

theorem rel_wf {cs : Line} {ht : List Line} {objs : List EmbObj}
    (hcs : okCharset cs) (hht : okContent ht)
    (hobjs : ∀ o ∈ objs, okMType o.mtypeVal ∧ okId o.id ∧ okContent o.data) :
    wfPart (mkMultipart "related".toList
      (textLeaf cs "html".toList ht :: objs.map objPart)) := by
  have h2 := @rel_wf_rest _ _ _ []
    (fun fd hfd => absurd hfd (List.not_mem_nil fd)) hcs hht hobjs
  rwa [hdrApp_nil] at h2

theorem rel_lines_le {cs : Line} {ht : List Line} {objs : List EmbObj}
    (hcs : okCharset cs) (hht : okContent ht)
    (hobjs : ∀ o ∈ objs, okMType o.mtypeVal ∧ okId o.id ∧ okContent o.data) :
    ∀ l ∈ genPart (mkMultipart "related".toList
      (textLeaf cs "html".toList ht :: objs.map objPart)), l.length ≤ 262 := by
  rw [mkMultipart]
  exact multi_ct_lines_le (by omega) (by decide) (by decide)
    (fun fd hfd => absurd hfd (List.not_mem_nil fd))
    (rel_children_le hcs hht hobjs) (by omega)

theorem alt_children_le {cs : Line} {pt : List Line} {X : Part}
    (hcs : okCharset cs) (hpt : okContent pt)
    (hXle : ∀ l ∈ genPart X, l.length ≤ 262) :
    ∀ l ∈ (genParts [textLeaf cs "plain".toList pt, X]).flatten, l.length ≤ 262 := by
  intro l hl
  rw [genParts_eq_map] at hl
  simp only [List.map_cons, List.map_nil, List.flatten_cons, List.flatten_nil,
    List.append_nil] at hl
  rcases List.mem_append.1 hl with h1 | h1
  · exact le_trans (textLeaf_lines_le rfl (by decide) hcs.2 hpt l h1) (by omega)
  · exact hXle l h1

theorem alt_wf_rest {cs : Line} {pt : List Line} {X : Part} {rest : List Field}
    (hrest : ∀ fd ∈ rest, wfField fd)
    (hcs : okCharset cs) (hpt : okContent pt)
    (hXwf : wfPart X) (hXle : ∀ l ∈ genPart X, l.length ≤ 262) :
    wfPart (hdrApp
      (mkMultipart "alternative".toList [textLeaf cs "plain".toList pt, X]) rest) := by
  rw [mkMultipart]
  show wfPart (.multi (ctField _ :: rest) [] _ [])
  apply multi_ct_wf (by decide) (by decide) hrest
  · exact le_trans (linesMax_le (alt_children_le hcs hpt hXle)) (by omega)
  · apply wfParts_of_forall
    intro c hc
    rcases List.mem_cons.1 hc with h | h
    · rw [h]
      exact textLeaf_plain_wf hcs hpt
    · rw [List.mem_singleton.1 h]
      exact hXwf

theorem alt_wf {cs : Line} {pt : List Line} {X : Part}
    (hcs : okCharset cs) (hpt : okContent pt)
    (hXwf : wfPart X) (hXle : ∀ l ∈ genPart X, l.length ≤ 262) :
    wfPart (mkMultipart "alternative".toList [textLeaf cs "plain".toList pt, X]) := by
  have h2 := @alt_wf_rest _ _ _ []
    (fun fd hfd => absurd hfd (List.not_mem_nil fd)) hcs hpt hXwf hXle
  rwa [hdrApp_nil] at h2

theorem alt_lines_le {cs : Line} {pt : List Line} {X : Part}
    (hcs : okCharset cs) (hpt : okContent pt)
    (hXle : ∀ l ∈ genPart X, l.length ≤ 262) :
    ∀ l ∈ genPart (mkMultipart "alternative".toList
      [textLeaf cs "plain".toList pt, X]), l.length ≤ 310 := by
  rw [mkMultipart]
  exact multi_ct_lines_le (by omega) (by decide) (by decide)
    (fun fd hfd => absurd hfd (List.not_mem_nil fd))
    (alt_children_le hcs hpt hXle) (by omega)

theorem contentTree_plain_eq {mb : messageBuilder} {cs : Line} {txt : List Line}
    (h : mb.textPart = .plain cs txt) :
    contentTree mb = textLeaf cs "plain".toList txt := by
  unfold contentTree
  rw [h]

theorem contentTree_html_some {mb : messageBuilder} {cs : Line} {ht pt : List Line}
    {objs : List EmbObj} (h : mb.textPart = .html cs ht (some pt) objs) :
    contentTree mb = mkMultipart "alternative".toList
      [textLeaf cs "plain".toList pt,
       if objs.isEmpty then textLeaf cs "html".toList ht
       else mkMultipart "related".toList
         (textLeaf cs "html".toList ht :: objs.map objPart)] := by
  unfold contentTree
  simp only [h]

theorem contentTree_html_none {mb : messageBuilder} {cs : Line} {ht : List Line}
    {objs : List EmbObj} (h : mb.textPart = .html cs ht none objs) :
    contentTree mb =
      (if objs.isEmpty then textLeaf cs "html".toList ht
       else mkMultipart "related".toList
         (textLeaf cs "html".toList ht :: objs.map objPart)) := by
  unfold contentTree
  simp only [h]

theorem contentTree_wf {mb : messageBuilder} (hw : WfInputs mb) :
    wfPart (contentTree mb) ∧ ∀ l ∈ genPart (contentTree mb), l.length ≤ 310 := by
  have htp := hw.2.2.2.2.2.2.2.1
  cases h : mb.textPart with
  | plain cs txt =>
    rw [contentTree_plain_eq h]
    rw [h] at htp
    rw [okTextPart] at htp
    constructor
    · exact textLeaf_plain_wf htp.1 htp.2
    · exact fun l hl =>
        le_trans (textLeaf_lines_le rfl (by decide) htp.1.2 htp.2 l hl) (by omega)
  | html cs ht alt objs =>
    rw [h] at htp
    rw [okTextPart] at htp
    obtain ⟨hcs, hht, halt, hobjs⟩ := htp
    cases alt with
    | some pt =>
      rw [contentTree_html_some h]
      rw [okAlt] at halt
      cases objs with
      | nil =>
        simp only [List.isEmpty_nil, if_true, List.map_nil]
        constructor
        · exact alt_wf hcs halt (textLeaf_html_wf hcs hht)
            (fun l hl => le_trans (textLeaf_lines_le rfl (by decide) hcs.2 hht l hl)
              (by omega))
        · exact alt_lines_le hcs halt
            (fun l hl => le_trans (textLeaf_lines_le rfl (by decide) hcs.2 hht l hl)
              (by omega))
      | cons o os =>
        simp only [List.isEmpty_cons, if_false]
        have hobjs' : ∀ x ∈ o :: os, okMType x.mtypeVal ∧ okId x.id ∧ okContent x.data :=
          hobjs
        constructor
        · exact alt_wf hcs halt (rel_wf hcs hht hobjs') (rel_lines_le hcs hht hobjs')
        · exact alt_lines_le hcs halt (rel_lines_le hcs hht hobjs')
    | none =>
      rw [contentTree_html_none h]
      cases objs with
      | nil =>
        simp only [List.isEmpty_nil, if_true, List.map_nil]
        constructor
        · exact textLeaf_html_wf hcs hht
        · exact fun l hl =>
            le_trans (textLeaf_lines_le rfl (by decide) hcs.2 hht l hl) (by omega)
      | cons o os =>
        simp only [List.isEmpty_cons, if_false]
        have hobjs' : ∀ x ∈ o :: os, okMType x.mtypeVal ∧ okId x.id ∧ okContent x.data :=
          hobjs
        constructor
        · exact rel_wf hcs hht hobjs'
        · exact fun l hl => le_trans (rel_lines_le hcs hht hobjs' l hl) (by omega)

theorem contentTree_wf_rest {mb : messageBuilder} (hw : WfInputs mb)
    {rest : List Field} (hrest : ∀ fd ∈ rest, wfField fd) :
    wfPart (hdrApp (contentTree mb) rest) := by
  have htp := hw.2.2.2.2.2.2.2.1
  cases h : mb.textPart with
  | plain cs txt =>
    rw [contentTree_plain_eq h]
    rw [h, okTextPart] at htp
    exact textLeaf_plain_wf_rest hrest htp.1 htp.2
  | html cs ht alt objs =>
    rw [h, okTextPart] at htp
    obtain ⟨hcs, hht, halt, hobjs⟩ := htp
    cases alt with
    | some pt =>
      rw [contentTree_html_some h]
      rw [okAlt] at halt
      cases objs with
      | nil =>
        simp only [List.isEmpty_nil, if_true, List.map_nil]
        exact alt_wf_rest hrest hcs halt (textLeaf_html_wf hcs hht)
          (fun l hl => le_trans (textLeaf_lines_le rfl (by decide) hcs.2 hht l hl)
            (by omega))
      | cons o os =>
        simp only [List.isEmpty_cons, if_false]
        exact alt_wf_rest hrest hcs halt (rel_wf hcs hht hobjs)
          (rel_lines_le hcs hht hobjs)
    | none =>
      rw [contentTree_html_none h]
      cases objs with
      | nil =>
        simp only [List.isEmpty_nil, if_true, List.map_nil]
        exact textLeaf_html_wf_rest hrest hcs hht
      | cons o os =>
        simp only [List.isEmpty_cons, if_false]
        exact rel_wf_rest hrest hcs hht hobjs

/-- Well-formedness of everything the builder constructs from sane
inputs. -/
theorem construct_wf {mb : messageBuilder} (hw : WfInputs mb) :
    wfPart (construct mb) := by
  have hroot := rootHeaders_wf hw
  unfold construct
  rw [addRootHeaders_eq]
  cases hatt : mb.attachments with
  | nil =>
    simp only [hatt, List.isEmpty_nil, if_true]
    exact contentTree_wf_rest hw hroot
  | cons a as =>
    simp only [hatt, List.isEmpty_cons, if_false]
    rw [mkMultipart]
    show wfPart (.multi (ctField _ :: rootHeaders mb) [] _ [])
    have hatts : ∀ x ∈ a :: as, okMType x.mtypeVal ∧ okContent x.data := by
      have h2 := hw.2.2.2.2.2.2.2.2
      rw [hatt] at h2
      exact h2
    have hchle : ∀ l ∈ (genParts (contentTree mb :: (a :: as).map attPart)).flatten,
        l.length ≤ 310 := by
      intro l hl
      rw [genParts] at hl
      simp only [List.flatten_cons] at hl
      rcases List.mem_append.1 hl with h1 | h1
      · exact (contentTree_wf hw).2 l h1
      · rw [genParts_eq_map] at h1
        obtain ⟨blk, hblk, hlb⟩ := List.mem_flatten.1 h1
        obtain ⟨p, hp, hpe⟩ := List.mem_map.1 hblk
        obtain ⟨x, hx, hxe⟩ := List.mem_map.1 hp
        rw [← hpe, ← hxe] at hlb
        exact le_trans (attPart_lines_le (hatts x hx).1 (hatts x hx).2 l hlb) (by omega)
    apply multi_ct_wf (by decide) (by decide) hroot
    · exact le_trans (linesMax_le hchle) (by omega)
    · apply wfParts_of_forall
      intro c hc
      rcases List.mem_cons.1 hc with h | h
      · rw [h]
        have h2 := @contentTree_wf_rest _ hw []
          (fun fd hfd => absurd hfd (List.not_mem_nil fd))
        rwa [hdrApp_nil] at h2
      · obtain ⟨x, hx, hxe⟩ := List.mem_map.1 h
        rw [← hxe]
        exact attPart_wf (hatts x hx).1 (hatts x hx).2

/-! ### The DateTime field parser

Modelled from the spec: RFC 5322 date-time with obsolete forms — an
optional day name, a 1–2 digit day, a month name, a year (two-digit years
interpreted as 1900+ for 50–99 and 2000+ for 00–49), a time, and a zone
(numeric offset or named zone, omitted meaning +0000).  An exhaustively
unparseable date is `BadDateTime`: the field degrades to `Raw`. -/

/-- Decimal value of a digit string. -/
def digitsVal (l : Line) : Nat := l.foldl (fun a c => a * 10 + (c.toNat - 48)) 0

/-- Whether every octet is a decimal digit. -/
def allDigits (l : Line) : Bool := l.all (fun c => c.isDigit)

/-- Modelled from the spec: two-digit years are 1900+ for 50–99 and 2000+
for 00–49. -/
def twoDigitYear (y : Nat) : Nat := if y ≤ 49 then 2000 + y else 1900 + y

/-- Parse a year token, applying the obsolete two-digit form. -/
def parseYear (w : Line) : Option Nat :=
  if allDigits w = true ∧ w ≠ [] then
    some (if w.length ≤ 2 then twoDigitYear (digitsVal w) else digitsVal w)
  else none

/-- Month names. -/
def monthTable : List (Line × Nat) :=
  [("jan".toList, 1), ("feb".toList, 2), ("mar".toList, 3), ("apr".toList, 4),
   ("may".toList, 5), ("jun".toList, 6), ("jul".toList, 7), ("aug".toList, 8),
   ("sep".toList, 9), ("oct".toList, 10), ("nov".toList, 11), ("dec".toList, 12)]

/-- Parse a month name (case-insensitive). -/
def monthNum (w : Line) : Option Nat :=
  (monthTable.find? (fun p => p.1 == lowerLine w)).map Prod.snd

/-- Day-of-week names. -/
def dayNames : List Line :=
  ["mon".toList, "tue".toList, "wed".toList, "thu".toList, "fri".toList,
   "sat".toList, "sun".toList]

/-- Parse `hh:mm` or `hh:mm:ss`. -/
def parseTime (w : Line) : Option (Nat × Nat × Nat) :=
  match splitOnChar ':' w with
  | [h, m] =>
    if allDigits h = true ∧ allDigits m = true ∧ h ≠ [] ∧ m ≠ [] then
      some (digitsVal h, digitsVal m, 0)
    else none
  | [h, m, s] =>
    if allDigits h = true ∧ allDigits m = true ∧ allDigits s = true ∧
        h ≠ [] ∧ m ≠ [] ∧ s ≠ [] then
      some (digitsVal h, digitsVal m, digitsVal s)
    else none
  | _ => none

/-- Named zones mapped per RFC. -/
def zoneTable : List (Line × Int) :=
  [("ut".toList, 0), ("gmt".toList, 0), ("est".toList, -300), ("edt".toList, -240),
   ("cst".toList, -360), ("cdt".toList, -300), ("mst".toList, -420),
   ("mdt".toList, -360), ("pst".toList, -480), ("pdt".toList, -420)]

/-- Parse a zone: `±hhmm` offset in minutes, or a named zone. -/
def parseZone (w : Line) : Option Int :=
  match w with
  | '+' :: ds =>
    if allDigits ds = true ∧ ds.length = 4 then
      some ((digitsVal (ds.take 2) : Int) * 60 + (digitsVal (ds.drop 2) : Int))
    else none
  | '-' :: ds =>
    if allDigits ds = true ∧ ds.length = 4 then
      some (-((digitsVal (ds.take 2) : Int) * 60 + (digitsVal (ds.drop 2) : Int)))
    else none
  | _ => (zoneTable.find? (fun p => p.1 == lowerLine w)).map Prod.snd

/-- A parsed date-time: calendar date, clock time, zone offset in
minutes. -/
structure DateTimeV where
  year : Nat
  month : Nat
  day : Nat
  hour : Nat
  minute : Nat
  second : Nat
  zone : Int
deriving DecidableEq, Repr

/-- Parse the day/month/year/time tokens with a known zone, with
plausibility bounds. -/
def parseDateCore (dw mow yw tw : Line) (z : Int) : Option DateTimeV :=
  if allDigits dw = true ∧ dw ≠ [] ∧ dw.length ≤ 2 then
    match monthNum mow, parseYear yw, parseTime tw with
    | some mo, some yy, some (h, mi, s) =>
      if 1 ≤ digitsVal dw ∧ digitsVal dw ≤ 31 ∧ h ≤ 23 ∧ mi ≤ 59 ∧ s ≤ 60 then
        some ⟨yy, mo, digitsVal dw, h, mi, s, z⟩
      else none
    | _, _, _ => none
  else none

/-- Parse a tokenized date: optional leading day name, optional trailing
zone (defaulting to +0000). -/
def parseDateWords : List Line → Option DateTimeV
  | [dn, dw, mow, yw, tw, zw] =>
    if dayNames.contains (lowerLine dn) then
      match parseZone zw with
      | some z => parseDateCore dw mow yw tw z
      | none => none
    else none
  | [dw, mow, yw, tw, zw] =>
    match parseZone zw with
    | some z => parseDateCore dw mow yw tw z
    | none => none
  | [dw, mow, yw, tw] => parseDateCore dw mow yw tw 0
  | _ => none

/-- Split a date value into words, treating commas as whitespace. -/
def wordsOf (l : Line) : List Line :=
  (splitOnChar ' ' (l.map (fun c => if c = ',' then ' ' else c))).filter
    (fun w => !w.isEmpty)

/-- Modelled from the spec: the DateTime typed-value parser. -/
def parseDateTime (l : Line) : Option DateTimeV := parseDateWords (wordsOf l)

/-- The typed view of a Date field: a parsed DateTime, or the raw octets. -/
inductive DateFieldValue where
  | dateTime : DateTimeV → DateFieldValue
  | raw : Line → DateFieldValue
deriving DecidableEq, Repr

/-- Modelled from the spec: typed access to a Date field value —
`BadDateTime` degrades the field to `Raw`. -/
def parseDateField (l : Line) : DateFieldValue :=
  match parseDateTime l with
  | some dt => .dateTime dt
  | none => .raw l

/-! ### CID references (messageBuilder HTML parts) -/

/-- Remove one pair of surrounding angle brackets from a Content-ID
value. -/
def stripAngles (l : Line) : Line :=
  let l1 := match l with
    | '<' :: t => t
    | _ => l
  if l1.getLast? = some '>' then l1.dropLast else l1

/-- Whether `needle` occurs as a contiguous substring of a line. -/
def infixB (needle : Line) : Line → Bool
  | [] => needle.isEmpty
  | c :: t => needle.isPrefixOf (c :: t) || infixB needle t

theorem stripAngles_objId (id : Line) : stripAngles ('<' :: (id ++ ['>'])) = id := by
  unfold stripAngles
  have h1 : (id ++ ['>'] : Line).getLast? = some '>' := List.getLast?_concat _
  show (if (id ++ ['>'] : Line).getLast? = some '>' then (id ++ ['>'] : Line).dropLast
    else id ++ ['>']) = id
  rw [if_pos h1, List.dropLast_concat]

theorem find?_cons_neg {α : Type} (p : α → Bool) (a : α) (l : List α)
    (h : p a = false) : (a :: l).find? p = l.find? p := by
  simp [List.find?_cons, h]

/-! ### Character preservation through folding -/

theorem chunk997_chars {l : Line} (f : Nat) {p : Line} (hp : p ∈ chunk997 f l)
    {c : Char} (hc : c ∈ p) : c ∈ l := by
  induction f generalizing l with
  | zero =>
    cases l with
    | nil => cases hp
    | cons a t =>
      rw [List.mem_singleton.1 hp] at hc
      exact hc
  | succ f ih =>
    cases l with
    | nil => cases hp
    | cons a t =>
      simp only [chunk997] at hp
      by_cases hle : (a :: t : Line).length ≤ 997
      · rw [if_pos hle] at hp
        rw [List.mem_singleton.1 hp] at hc
        exact hc
      · rw [if_neg hle] at hp
        rcases List.mem_cons.1 hp with h | h
        · rw [h] at hc
          exact List.take_subset _ _ hc
        · exact List.drop_subset _ _ (ih h)

theorem emitLine_chars {cur : Line} {p : Line} (hp : p ∈ emitLine cur)
    {c : Char} (hc : c ∈ p) : c ∈ cur ∨ c = ' ' := by
  unfold emitLine at hp
  by_cases h : cur.length ≤ 998
  · rw [if_pos h] at hp
    rw [List.mem_singleton.1 hp] at hc
    exact Or.inl hc
  · rw [if_neg h] at hp
    cases hch : chunk997 cur.length cur with
    | nil =>
      rw [hch] at hp
      rw [List.mem_singleton.1 hp] at hc
      exact Or.inl hc
    | cons q qs =>
      rw [hch] at hp
      rcases List.mem_cons.1 hp with h1 | h1
      · rw [h1] at hc
        exact Or.inl (chunk997_chars cur.length (by rw [hch]; exact List.mem_cons_self _ _) hc)
      · obtain ⟨r, hr, hrq⟩ := List.mem_map.1 h1
        rw [← hrq] at hc
        rcases List.mem_cons.1 hc with h2 | h2
        · exact Or.inr h2
        · exact Or.inl (chunk997_chars cur.length
            (by rw [hch]; exact List.mem_cons_of_mem _ hr) h2)

theorem foldGo_chars {us : List Line} : ∀ {cur : Line} {p : Line}, p ∈ foldGo cur us →
    ∀ {c : Char}, c ∈ p → c ∈ cur ∨ c ∈ us.flatten ∨ c = ' ' := by
  induction us with
  | nil =>
    intro cur p hp c hc
    rcases emitLine_chars hp hc with h | h
    · exact Or.inl h
    · exact Or.inr (Or.inr h)
  | cons u us ih =>
    intro cur p hp c hc
    have hmemu : c ∈ u → c ∈ (u :: us).flatten := by
      intro h
      simp only [List.flatten_cons]
      exact List.mem_append.2 (Or.inl h)
    have hmemus : c ∈ us.flatten → c ∈ (u :: us).flatten := by
      intro h
      simp only [List.flatten_cons]
      exact List.mem_append.2 (Or.inr h)
    by_cases hle : cur.length + u.length ≤ 78
    · simp only [foldGo, if_pos hle] at hp
      rcases ih hp hc with h | h | h
      · rcases List.mem_append.1 h with h1 | h1
        · exact Or.inl h1
        · exact Or.inr (Or.inl (hmemu h1))
      · exact Or.inr (Or.inl (hmemus h))
      · exact Or.inr (Or.inr h)
    · simp only [foldGo, if_neg hle] at hp
      rcases List.mem_append.1 hp with h1 | h1
      · rcases emitLine_chars h1 hc with h | h
        · exact Or.inl h
        · exact Or.inr (Or.inr h)
      · rcases ih h1 hc with h | h | h
        · exact Or.inr (Or.inl (hmemu h))
        · exact Or.inr (Or.inl (hmemus h))
        · exact Or.inr (Or.inr h)

theorem foldLine_chars_general {s : Line} {p : Line} (hp : p ∈ foldLine s)
    {c : Char} (hc : c ∈ p) : c ∈ s ∨ c = ' ' := by
  unfold foldLine at hp
  cases hu : unitsF s.length s with
  | nil =>
    rw [hu] at hp
    rw [List.mem_singleton.1 hp] at hc
    cases hc
  | cons u us =>
    rw [hu] at hp
    have hfl : u ++ us.flatten = s := by
      have h2 := unitsF_flatten s.length (le_refl _)
      rw [hu] at h2
      simpa using h2
    rcases foldGo_chars hp hc with h | h | h
    · exact Or.inl (by rw [← hfl]; exact List.mem_append.2 (Or.inl h))
    · exact Or.inl (by rw [← hfl]; exact List.mem_append.2 (Or.inr h))
    · exact Or.inr h

/-! ### Subpart enumeration -/

mutual

/-- All parts of a tree: the root and, recursively, every descendant. -/
def subparts : Part → List Part
  | .leaf h c => [.leaf h c]
  | .multi h pre cs epi => .multi h pre cs epi :: subpartsList cs

/-- All parts of a list of sibling trees. -/
def subpartsList : List Part → List Part
  | [] => []
  | c :: cs => subparts c ++ subpartsList cs

end

/-- A part is "multipart-typed": effective top-level type `multipart` with
a non-empty boundary parameter. -/
def multipartTyped (P : Part) : Prop :=
  effTop P.header = "multipart".toList ∧
  ∃ b, boundaryParam P.header = some b ∧ b ≠ []

theorem parseTypedAux : ∀ f : Nat,
    (∀ lines P, P ∈ subparts (parsePartF f lines) → P.isMultipartBody = true →
      multipartTyped P) ∧
    (∀ b lines P, P ∈ subpartsList (parsePartsF f b lines).1 →
      P.isMultipartBody = true → multipartTyped P) := by
  intro f
  induction f with
  | zero =>
    constructor
    · intro lines P hP hm
      simp only [parsePartF] at hP
      rw [subparts] at hP
      rw [List.mem_singleton.1 hP] at hm
      simp [Part.isMultipartBody] at hm
    · intro b lines P hP hm
      simp only [parsePartsF] at hP
      simp only [subpartsList] at hP
      cases hP
  | succ f ih =>
    constructor
    · intro lines P hP hm
      simp only [parsePartF] at hP
      split at hP
      next htop =>
        split at hP
        next b heq =>
          split at hP
          next hbe =>
            rw [subparts] at hP
            rw [List.mem_singleton.1 hP] at hm
            simp [Part.isMultipartBody] at hm
          next hbe =>
            rw [subparts] at hP
            rcases List.mem_cons.1 hP with h1 | h1
            · rw [h1]
              refine ⟨htop, b, heq, ?_⟩
              intro hbnil
              rw [hbnil] at hbe
              exact hbe rfl
            · exact ih.2 _ _ P h1 hm
        next heq =>
          rw [subparts] at hP
          rw [List.mem_singleton.1 hP] at hm
          simp [Part.isMultipartBody] at hm
      next htop =>
        rw [subparts] at hP
        rw [List.mem_singleton.1 hP] at hm
        simp [Part.isMultipartBody] at hm
    · intro b lines P hP hm
      cases lines with
      | nil =>
        simp only [parsePartsF] at hP
        simp only [subpartsList] at hP
        cases hP
      | cons d rest =>
        simp only [parsePartsF] at hP
        split at hP
        next hclose =>
          simp only [subpartsList] at hP
          cases hP
        next hclose =>
          simp only [subpartsList] at hP
          rcases List.mem_append.1 hP with h1 | h1
          · exact ih.1 _ P h1 hm
          · exact ih.2 b _ P h1 hm

mutual

theorem wf_sub_typed : ∀ p, wfPart p → ∀ P, P ∈ subparts p →
    (P.isMultipartBody = true ↔ multipartTyped P)
  | .leaf h c => by
    intro hw P hP
    rw [subparts] at hP
    rw [List.mem_singleton.1 hP]
    rw [wfPart] at hw
    constructor
    · intro hm
      simp [Part.isMultipartBody] at hm
    · rintro ⟨htop, b, hbp, hbne⟩
      exfalso
      simp only [Part.header] at htop hbp
      rcases hw.2.2 with h1 | h1 | h1
      · exact h1 htop
      · rw [h1] at hbp
        cases hbp
      · rw [h1] at hbp
        injection hbp with hb
        exact hbne hb.symm
  | .multi h pre cs epi => by
    intro hw P hP
    rw [subparts] at hP
    rcases List.mem_cons.1 hP with h1 | h1
    · rw [h1]
      rw [wfPart] at hw
      obtain ⟨_, htop, hbok, _, _, _⟩ := hw
      unfold boundaryOK at hbok
      cases hbp : boundaryParam h with
      | none =>
        rw [hbp] at hbok
        exact absurd hbok id
      | some b =>
        rw [hbp] at hbok
        constructor
        · intro _
          exact ⟨htop, b, hbp, hbok.1⟩
        · intro _
          rfl
    · refine wf_subList_typed cs ?_ P h1
      rw [wfPart] at hw
      exact hw.2.2.2.2.2

theorem wf_subList_typed : ∀ cs, wfParts cs → ∀ P, P ∈ subpartsList cs →
    (P.isMultipartBody = true ↔ multipartTyped P)
  | [] => by
    intro _ P hP
    rw [subpartsList] at hP
    cases hP
  | c :: cs => by
    intro hw P hP
    rw [subpartsList] at hP
    rw [wfParts_cons] at hw
    rcases List.mem_append.1 hP with h1 | h1
    · exact wf_sub_typed c hw.1 P h1
    · exact wf_subList_typed cs hw.2 P h1

end

/-! ### Concrete instances used by witnesses -/

/-- A builder state exercising every feature (used by the C1 witness). -/
def mbW1 : messageBuilder :=
  { expeditor := "me@vmime.org".toList
    recipients := ["you@vmime.org".toList]
    ccRecipients := []
    bccRecipients := []
    subjectText := "An HTML message".toList
    dateValue := "Thu, 13 Oct 2005 15:22:46 +0200".toList
    messageIdValue := "<1234.5678@vmime.org>".toList
    textPart := .html "us-ascii".toList
      ["<b>HTML</b> <img src=\"cid:img1@vmime.org\"/>".toList]
      (some ["plain text".toList])
      [⟨"img1@vmime.org".toList, "image/jpeg".toList, ["JFIFDATA".toList]⟩]
    attachments := [⟨"application/octet-stream".toList, ["DATA123".toList]⟩] }

/-- The octets of a multipart message without a boundary parameter (C2
counterexample input). -/
def c2octets : List Char :=
  "Content-Type: multipart/mixed\r\n\r\nhello\r\n".toList

/-- The octets of a well-delimited multipart message (C2 witness input). -/
def c2octets2 : List Char :=
  "Content-Type: multipart/mixed; boundary=qq\r\n\r\n--qq\r\nA: b\r\n\r\nx\r\n--qq--\r\n".toList

/-- A child part (C3 witness input). -/
def c3child : Part := Part.leaf [⟨['A'], ['b']⟩] ["content".toList]

/-- A multipart part with a declared boundary (C3 witness input). -/
def c3part : Part :=
  Part.multi [⟨"Content-Type".toList, "multipart/mixed; boundary=zz".toList⟩]
    [] [c3child] []

/-- Header region of a boundary-less multipart message (C4 witness). -/
def c4hl : List Line := ["Content-Type: multipart/mixed".toList]

/-- Body region of a boundary-less multipart message (C4 witness). -/
def c4bl : List Line := ["hello world".toList]

/-- A builder state with HTML, plain alternative and one embedded object
and no attachment (C5 witness). -/
def mbW5 : messageBuilder :=
  { expeditor := "me@vmime.org".toList
    recipients := ["you@vmime.org".toList]
    ccRecipients := []
    bccRecipients := []
    subjectText := "An HTML message".toList
    dateValue := "Thu, 13 Oct 2005 15:22:46 +0200".toList
    messageIdValue := "<1234.5678@vmime.org>".toList
    textPart := .html "us-ascii".toList
      ["the image: <img src=\"cid:img1@vmime.org\"/>".toList]
      (some ["plain text".toList])
      [⟨"img1@vmime.org".toList, "image/jpeg".toList, ["JFIFDATA".toList]⟩]
    attachments := [] }

/-- A header field whose folded form is exercised (C7 witness). -/
def fdW7 : Field :=
  ⟨"Subject".toList,
   "a rather long subject line with many words that will need folding to fit into the line limits".toList⟩

end VMime

namespace VMime

open Net

/-- C1: for every model tree the messageBuilder can produce (from
well-formed inputs: CR/LF-free header values and content of bounded line
length, non-multipart object and attachment types), parsing the octets
obtained by generating the constructed tree yields a tree structurally
equal to it — same header field order, part order, and body bytes. -/
theorem claim1_builder_roundtrip (mb : messageBuilder) (hw : WfInputs mb) :
    parseOctets (generateOctets (construct mb)) = construct mb :=
  parseOctets_generateOctets (construct_wf hw)

theorem claim1_witness :
    WfInputs mbW1 ∧ parseOctets (generateOctets (construct mbW1)) = construct mbW1 :=
  ⟨by decide, claim1_builder_roundtrip mbW1 (by decide)⟩

/-- C2 (counterexample): parsing a message whose `Content-Type` is
`multipart/mixed` without a boundary parameter yields a part whose
effective top-level type is `multipart` but whose body is a leaf, so the
claimed equivalence fails for a part reachable by parsing. -/
theorem claim2_counterexample :
    Part.leaf [⟨"Content-Type".toList, "multipart/mixed".toList⟩] ["hello".toList]
      ∈ subparts (parseOctets c2octets) ∧
    effTop (Part.leaf [⟨"Content-Type".toList, "multipart/mixed".toList⟩]
      ["hello".toList]).header = "multipart".toList ∧
    (Part.leaf [⟨"Content-Type".toList, "multipart/mixed".toList⟩]
      ["hello".toList]).isMultipartBody = false := by
  decide

/-- C2 (amended): every multipart-shaped part reachable by parsing is
multipart-typed with a non-empty boundary parameter; for every
well-formed part (in particular every tree the builder constructs from
well-formed inputs) the equivalence holds in both directions; the
converse direction fails for parsing exactly in the `BoundaryMissing`
degradation exhibited by the counterexample. -/
theorem claim2_multipart_invariant :
    (∀ (lines : List Line) (P : Part), P ∈ subparts (parse lines) →
      P.isMultipartBody = true → multipartTyped P) ∧
    (∀ p : Part, wfPart p → ∀ P ∈ subparts p,
      (P.isMultipartBody = true ↔ multipartTyped P)) ∧
    (∀ mb : messageBuilder, WfInputs mb → ∀ P ∈ subparts (construct mb),
      (P.isMultipartBody = true ↔ multipartTyped P)) :=
  ⟨fun lines P hP hm => (parseTypedAux (lines.length + 1)).1 lines P hP hm,
   fun p hw P hP => wf_sub_typed p hw P hP,
   fun _ hw P hP => wf_sub_typed _ (construct_wf hw) P hP⟩

theorem claim2_witness : multipartTyped (parse (splitLines c2octets2)) :=
  claim2_multipart_invariant.1 (splitLines c2octets2)
    (parse (splitLines c2octets2)) (by decide) (by decide)

/-- C3: the boundary the generator uses for a multipart part — kept from
the declaration when its scan of the children's serialized output
succeeds, freshly chosen otherwise — is never a prefix of any line of any
child's generated form. -/
theorem claim3_boundary_not_prefix (h : List Field) (pre : List Line)
    (cs : List Part) (epi : List Line) :
    ∀ c ∈ cs, ∀ l ∈ genPart c,
      (usedBoundary (.multi h pre cs epi)).isPrefixOf l = false := by
  intro c hc l hl
  have hmem : l ∈ (genParts cs).flatten := by
    rw [genParts_eq_map]
    exact List.mem_flatten.2 ⟨genPart c, List.mem_map.2 ⟨c, hc, rfl⟩, hl⟩
  exact (safeBoundary_spec (usedBoundary_safe h pre cs epi) hmem).1

theorem claim3_witness :
    (usedBoundary c3part).isPrefixOf ("A: b".toList) = false :=
  claim3_boundary_not_prefix
    [⟨"Content-Type".toList, "multipart/mixed; boundary=zz".toList⟩] [] [c3child] []
    c3child (by decide) ("A: b".toList) (by decide)

/-- C4: parsing is total — every octet sequence parses to a Part — and a
message whose effective type is multipart but whose media type has no (or
an empty) boundary parameter parses to a single opaque leaf carrying all
of the original body lines. -/
theorem claim4_permissive_parse :
    (∀ octets : List Char, ∃ m : Part, parseOctets octets = m) ∧
    (∀ (hl bl : List Line), (∀ l ∈ hl, l ≠ []) →
      effTop (parseHeader hl) = "multipart".toList →
      (boundaryParam (parseHeader hl) = none ∨
        boundaryParam (parseHeader hl) = some []) →
      parse (hl ++ [] :: bl) = .leaf (parseHeader hl) bl) := by
  constructor
  · intro octets
    exact ⟨parseOctets octets, rfl⟩
  · intro hl bl hne htop hbp
    unfold parse
    have hnn : ∀ l ∈ hl, (fun l : Line => !l.isEmpty) l = true :=
      fun l hli => bnot_isEmpty_of_ne (hne l hli)
    have ht : (hl ++ [] :: bl).takeWhile (fun l => !l.isEmpty) = hl :=
      takeWhile_append_stop hnn rfl
    have hd : (hl ++ [] :: bl).dropWhile (fun l => !l.isEmpty) = [] :: bl :=
      dropWhile_append_stop hnn rfl
    simp only [parsePartF]
    rw [ht, hd]
    simp only [List.drop_succ_cons, List.drop_zero]
    rw [if_pos htop]
    rcases hbp with hbp | hbp
    · rw [hbp]
    · rw [hbp]
      rfl

theorem claim4_witness :
    parse (c4hl ++ [] :: c4bl) = .leaf (parseHeader c4hl) c4bl :=
  claim4_permissive_parse.2 c4hl c4bl (by decide) (by decide) (by decide)

/-- C5: when the builder holds an HTML text part with a plain alternative
and at least one embedded object and no attachment, `construct` produces
exactly `multipart/alternative { plain, multipart/related { html,
objects… } }` (with the outermost header fields added); and when the HTML
body references each embedded object via `cid:` followed by its
identifier, it thereby references each object part's `Content-ID` with
the angle brackets removed. -/
theorem claim5_html_structure (mb : messageBuilder) (cs : Line) (ht pt : List Line)
    (objs : List EmbObj)
    (h1 : mb.textPart = .html cs ht (some pt) objs)
    (h2 : objs ≠ [])
    (h3 : mb.attachments = [])
    (hcid : ∀ o ∈ objs, ∃ l ∈ ht, infixB ("cid:".toList ++ o.id) l = true) :
    construct mb = addRootHeaders mb (mkMultipart "alternative".toList
      [textLeaf cs "plain".toList pt,
       mkMultipart "related".toList
         (textLeaf cs "html".toList ht :: objs.map objPart)])
    ∧ ∀ op ∈ objs.map objPart, ∃ cid : Line,
        findField op.header "Content-ID".toList = some ⟨"Content-ID".toList, cid⟩ ∧
        ∃ l ∈ ht, infixB ("cid:".toList ++ stripAngles cid) l = true := by
  constructor
  · unfold construct
    rw [h3]
    simp only [List.isEmpty_nil, if_true]
    rw [contentTree_html_some h1]
    have hobe : objs.isEmpty = false := by
      cases objs with
      | nil => exact absurd rfl h2
      | cons a b => rfl
    rw [if_neg (by simp [hobe])]
  · intro op hop
    obtain ⟨o, ho, hoe⟩ := List.mem_map.1 hop
    refine ⟨'<' :: (o.id ++ ['>']), ?_, ?_⟩
    · rw [← hoe]
      show findField (ctField o.mtypeVal
        :: [⟨"Content-ID".toList, '<' :: (o.id ++ ['>'])⟩]) "Content-ID".toList = _
      unfold findField
      rw [find?_cons_neg _ _ _ (by
        show (lowerLine "Content-Type".toList == lowerLine "Content-ID".toList) = false
        decide)]
      rw [find?_cons_pos _ _ _ (by
        show (lowerLine "Content-ID".toList == lowerLine "Content-ID".toList) = true
        decide)]
    · rw [stripAngles_objId]
      exact hcid o ho

theorem claim5_witness :
    construct mbW5 = addRootHeaders mbW5 (mkMultipart "alternative".toList
      [textLeaf "us-ascii".toList "plain".toList [" plain text".toList.tail],
       mkMultipart "related".toList
         (textLeaf "us-ascii".toList "html".toList
            ["the image: <img src=\"cid:img1@vmime.org\"/>".toList]
          :: [⟨"img1@vmime.org".toList, "image/jpeg".toList,
               ["JFIFDATA".toList]⟩].map objPart)]) :=
  (claim5_html_structure mbW5 "us-ascii".toList
    ["the image: <img src=\"cid:img1@vmime.org\"/>".toList]
    ["plain text".toList]
    [⟨"img1@vmime.org".toList, "image/jpeg".toList, ["JFIFDATA".toList]⟩]
    rfl (by decide) rfl (by decide)).1

/-- C6: the DateTime parser interprets a two-digit year token as 2000+value
for 00–49 and 1900+value for 50–99; a well-formed tokenized date (day,
month name, two-digit year, time, zone) parses successfully with the year
so interpreted; and when no plausible parse exists the typed access
degrades the field to Raw. -/
theorem claim6_datetime :
    (∀ w : Line, allDigits w = true → w ≠ [] → w.length ≤ 2 →
      parseYear w = some (if digitsVal w ≤ 49 then 2000 + digitsVal w
        else 1900 + digitsVal w)) ∧
    (∀ (dw mow yw tw zw : Line) (z : Int) (h mi s : Nat),
      parseZone zw = some z →
      allDigits dw = true → dw ≠ [] → dw.length ≤ 2 →
      1 ≤ digitsVal dw → digitsVal dw ≤ 31 →
      (monthNum mow).isSome = true →
      parseTime tw = some (h, mi, s) → h ≤ 23 → mi ≤ 59 → s ≤ 60 →
      allDigits yw = true → yw ≠ [] → yw.length ≤ 2 →
      ∃ dt, parseDateWords [dw, mow, yw, tw, zw] = some dt ∧
        dt.year = (if digitsVal yw ≤ 49 then 2000 + digitsVal yw
          else 1900 + digitsVal yw)) ∧
    (∀ l : Line, parseDateTime l = none → parseDateField l = .raw l) := by
  refine ⟨?_, ?_, ?_⟩
  · intro w hd hne hlen
    unfold parseYear
    rw [if_pos ⟨hd, hne⟩, if_pos hlen]
    unfold twoDigitYear
    rfl
  · intro dw mow yw tw zw z h mi s hz hd hdne hdlen hd1 hd31 hmo htime hh hmi hs
      hy hyne hylen
    obtain ⟨mo, hmoeq⟩ := Option.isSome_iff_exists.1 hmo
    have hyeq : parseYear yw = some (twoDigitYear (digitsVal yw)) := by
      unfold parseYear
      rw [if_pos ⟨hy, hyne⟩, if_pos hylen]
    have hcore : parseDateCore dw mow yw tw z
        = some ⟨twoDigitYear (digitsVal yw), mo, digitsVal dw, h, mi, s, z⟩ := by
      unfold parseDateCore
      rw [if_pos ⟨hd, hdne, hdlen⟩]
      simp only [hmoeq, hyeq, htime]
      rw [if_pos ⟨hd1, hd31, hh, hmi, hs⟩]
    refine ⟨⟨twoDigitYear (digitsVal yw), mo, digitsVal dw, h, mi, s, z⟩, ?_, ?_⟩
    · simp only [parseDateWords, hz]
      exact hcore
    · show twoDigitYear (digitsVal yw) = _
      unfold twoDigitYear
      rfl
  · intro l hnone
    unfold parseDateField
    rw [hnone]

theorem claim6_witness :
    ∃ dt, parseDateWords ["13".toList, "Oct".toList, "05".toList,
        "15:22:46".toList, "+0200".toList] = some dt ∧
      dt.year = (if digitsVal "05".toList ≤ 49 then 2000 + digitsVal "05".toList
        else 1900 + digitsVal "05".toList) :=
  claim6_datetime.2.1 "13".toList "Oct".toList "05".toList "15:22:46".toList
    "+0200".toList 120 15 22 46 (by decide) (by decide) (by decide) (by decide)
    (by decide) (by decide) (by decide) (by decide) (by decide) (by decide)
    (by decide) (by decide) (by decide) (by decide)

/-- C7: for every header field the generator emits, folding produces
physical lines of at most 998 octets always, of at most 78 octets
whenever possible (whenever every indivisible unit of the logical line
fits in 78 octets), the emitted lines stay CR/LF-free when the field is,
and the octet rendering terminates every physical line with CRLF. -/
theorem claim7_folding (fd : Field) :
    (∀ l ∈ genFieldLines fd, l.length ≤ 998) ∧
    ((∀ u ∈ unitsF (fieldLine fd).length (fieldLine fd), u.length ≤ 78) →
      ∀ l ∈ genFieldLines fd, l.length ≤ 78) ∧
    (noCRLF (fieldLine fd) → ∀ l ∈ genFieldLines fd, noCRLF l) ∧
    linesToOctets (genFieldLines fd)
      = ((genFieldLines fd).map (fun l => l ++ ['\r', '\n'])).flatten := by
  refine ⟨?_, ?_, ?_, rfl⟩
  · intro l hl
    exact foldLine_bound998 l hl
  · intro hu l hl
    have h2 := foldLine_soft hu l hl
    simpa using h2
  · intro hcr l hl c hc
    rcases foldLine_chars_general hl hc with h | h
    · exact hcr c h
    · rw [h]
      exact ⟨by decide, by decide⟩

theorem claim7_witness :
    (∀ l ∈ genFieldLines fdW7, l.length ≤ 78) ∧
    (∀ l ∈ genFieldLines fdW7, noCRLF l) :=
  ⟨(claim7_folding fdW7).2.1 (by decide), (claim7_folding fdW7).2.2.1 (by decide)⟩

/-- C8: `setUsername u` makes `getUsername` return `u` and leaves
`getPassword` unchanged; symmetrically `setPassword p` makes `getPassword`
return `p` and leaves `getUsername` unchanged. -/
theorem claim8_setters_frame (a : simpleAuthenticator) (u p : String) :
    (a.setUsername u).getUsername = u ∧
    (a.setUsername u).getPassword = a.getPassword ∧
    (a.setPassword p).getPassword = p ∧
    (a.setPassword p).getUsername = a.getUsername := by
  refine ⟨rfl, rfl, rfl, rfl⟩

/-- C9: `requestAuthInfos` returns an `authenticationInfos` built from
exactly the current username and password, does not modify the
authenticator's state, and two consecutive calls return equal results. -/
theorem claim9_requestAuthInfos (a : simpleAuthenticator) :
    a.requestAuthInfos.1 = ⟨a.getUsername, a.getPassword⟩ ∧
    a.requestAuthInfos.2 = a ∧
    (a.requestAuthInfos.2.requestAuthInfos).1 = a.requestAuthInfos.1 := by
  refine ⟨rfl, rfl, rfl⟩

/-- C10: the two-argument constructor stores exactly the given username and
password, and the default constructor stores empty strings. -/
theorem claim10_constructors (u p : String) :
    (simpleAuthenticator.mkWith u p).getUsername = u ∧
    (simpleAuthenticator.mkWith u p).getPassword = p ∧
    simpleAuthenticator.mkDefault.getUsername = "" ∧
    simpleAuthenticator.mkDefault.getPassword = "" := by
  refine ⟨rfl, rfl, rfl, rfl⟩

end VMime
